import Mathlib

/-!
Verification of the `net::MessageProcessor` protocol layer
(`MessageProcessor.hpp`): JSON message framing, buffering, handler
dispatch and the send/flush path.

The repository vendors the json11 library
(`common/extlib/json11/json11.hpp`), whose sources are not part of the
reviewed tree; the JSON value representation, serializer (`Json::dump`)
and whole-buffer parser (`Json::parse_multi`) are therefore modelled from
the specification (whitespace/null-separated JSON values, envelope shape
`{"type": <string>, "entity": <any>}`).  Numbers are modelled by their
integer fragment; strings are sequences of characters with the escapes
the serializer emits.  Everything else (`parseBuffer`, `proccess`,
`dispatch`, `addHandler`, `send`, `flushSendQueue`) is translated
directly from `MessageProcessor.hpp`.
-/

namespace net

/-- JSON values as exchanged by `net::MessageProcessor`.
Modelled from the spec: the vendored json11 value type (objects, arrays,
strings, booleans, numbers, null); numbers restricted to the integer
fragment, objects kept as ordered field lists. -/
inductive Json where
  | null : Json
  | bool (b : Bool) : Json
  | num (n : Int) : Json
  | str (s : List Char) : Json
  | arr (elems : List Json) : Json
  | obj (fields : List (List Char × Json)) : Json

/-! ### Serializer (modelled from the spec's wire format) -/

/-- Escaping of a single character inside a JSON string literal. -/
def escapeChar (c : Char) : List Char :=
  if c = '"' ∨ c = '\\' then ['\\', c] else [c]

/-- Escaping of a whole string body. -/
def escapeStr : List Char → List Char
  | [] => []
  | c :: s => escapeChar c ++ escapeStr s

/-- A serialized JSON string (used both for string values and object keys). -/
def dumpKey (k : List Char) : List Char := '"' :: (escapeStr k ++ ['"'])

/-- Decimal digit character. -/
def digitChar (d : Nat) : Char := Char.ofNat (48 + d)

/-- Decimal representation of a positive natural number, most significant
digit first. -/
def natChars (n : Nat) : List Char :=
  ((Nat.digits 10 n).map digitChar).reverse

/-- Decimal representation of an integer. -/
def dumpInt (n : Int) : List Char :=
  if n < 0 then '-' :: natChars n.natAbs
  else if n = 0 then ['0']
  else natChars n.toNat

mutual

/-- Modelled from the spec: `json11::Json::dump`, the serializer used by
the flush path.  Compact encoding of a JSON value. -/
def dump : Json → List Char
  | .null => ['n', 'u', 'l', 'l']
  | .bool b => if b then ['t', 'r', 'u', 'e'] else ['f', 'a', 'l', 's', 'e']
  | .num n => dumpInt n
  | .str s => dumpKey s
  | .arr [] => ['[', ']']
  | .arr (x :: xs) => '[' :: (dumpElems x xs ++ [']'])
  | .obj [] => ['{', '}']
  | .obj (f :: fs) => '{' :: (dumpFields f fs ++ ['}'])
termination_by v => sizeOf v
decreasing_by all_goals (simp_wf; try omega)

/-- Comma-separated dump of a non-empty list of array elements. -/
def dumpElems : Json → List Json → List Char
  | x, [] => dump x
  | x, y :: ys => dump x ++ ',' :: dumpElems y ys
termination_by x xs => 1 + sizeOf x + sizeOf xs
decreasing_by all_goals (simp_wf; try omega)

/-- Comma-separated dump of a non-empty list of object fields. -/
def dumpFields : (List Char × Json) → List (List Char × Json) → List Char
  | (k, v), [] => dumpKey k ++ ':' :: dump v
  | (k, v), f :: fs => dumpKey k ++ ':' :: dump v ++ ',' :: dumpFields f fs
termination_by f fs => 1 + sizeOf f + sizeOf fs
decreasing_by all_goals (simp_wf; try omega)

end

/-- Reduction of `dump` on the two boolean literals. -/
theorem dump_bool_true : dump (Json.bool true) = ['t', 'r', 'u', 'e'] := by
  simp [dump]

theorem dump_bool_false : dump (Json.bool false) = ['f', 'a', 'l', 's', 'e'] := by
  simp [dump]

/-! ### Parser (modelled from the spec's framing contract) -/

/-- Whitespace / null separator characters between serialized messages. -/
def isWs (c : Char) : Bool :=
  decide (c = ' ' ∨ c = '\t' ∨ c = '\n' ∨ c = '\r' ∨ c = Char.ofNat 0)

/-- Decimal digit test. -/
def isDig (c : Char) : Bool := 48 ≤ c.toNat && c.toNat ≤ 57

/-- Drop leading separator characters. -/
def skipWs : List Char → List Char
  | [] => []
  | c :: r => if isWs c then skipWs r else c :: r

/-- Consume a maximal run of decimal digits, accumulating their value. -/
def parseDigits (acc : Nat) : List Char → Nat × List Char
  | [] => (acc, [])
  | c :: r =>
    if isDig c then parseDigits (acc * 10 + (c.toNat - 48)) r else (acc, c :: r)

/-- After a digit run, a number may not be continued by a fraction or
exponent (the model covers the integer fragment only). -/
def numStop : List Char → Bool
  | [] => true
  | c :: _ => !(isDig c || c == '.' || c == 'e' || c == 'E')

mutual

/-- Parse the body of a JSON string literal after the opening quote:
characters up to the closing quote, undoing the serializer's escapes. -/
def parseStrBody : List Char → Option (List Char × List Char)
  | [] => none
  | c :: r =>
    if c = '"' then some ([], r)
    else if c = '\\' then parseStrEsc r
    else
      match parseStrBody r with
      | none => none
      | some (s, rest) => some (c :: s, rest)
termination_by xs => xs.length
decreasing_by all_goals (simp_wf; try omega)

/-- Continuation after a backslash inside a string literal. -/
def parseStrEsc : List Char → Option (List Char × List Char)
  | [] => none
  | e :: r =>
    if e = '"' ∨ e = '\\' then
      match parseStrBody r with
      | none => none
      | some (s, rest) => some (e :: s, rest)
    else none
termination_by xs => xs.length
decreasing_by all_goals (simp_wf; try omega)

end

mutual

/-- Modelled from the spec: one JSON value parsed off the front of the
buffer (fuel-indexed recursive descent; exhausted fuel reads as parse
failure). -/
def parseVal : Nat → List Char → Option (Json × List Char)
  | 0, _ => none
  | fuel + 1, s =>
    match skipWs s with
    | [] => none
    | c :: r =>
      if c = 'n' then
        if r.take 3 = ['u', 'l', 'l'] then some (.null, r.drop 3) else none
      else if c = 't' then
        if r.take 3 = ['r', 'u', 'e'] then some (.bool true, r.drop 3) else none
      else if c = 'f' then
        if r.take 4 = ['a', 'l', 's', 'e'] then some (.bool false, r.drop 4) else none
      else if c = '"' then
        match parseStrBody r with
        | none => none
        | some (s2, rest) => some (.str s2, rest)
      else if c = '-' then
        match r with
        | [] => none
        | c2 :: _ =>
          if isDig c2 then
            match parseDigits 0 r with
            | (m, rest) =>
              if numStop rest then some (.num (-(m : Int)), rest) else none
          else none
      else if isDig c then
        match parseDigits 0 (c :: r) with
        | (m, rest) =>
          if numStop rest then some (.num (m : Int), rest) else none
      else if c = '[' then
        match skipWs r with
        | [] => none
        | c2 :: r2 =>
          if c2 = ']' then some (.arr [], r2)
          else
            match parseElems fuel r with
            | none => none
            | some (xs, rest) => some (.arr xs, rest)
      else if c = '{' then
        match skipWs r with
        | [] => none
        | c2 :: r2 =>
          if c2 = '}' then some (.obj [], r2)
          else
            match parseFields fuel r with
            | none => none
            | some (fs, rest) => some (.obj fs, rest)
      else none

/-- Elements of a non-empty array: one value, then `]` or `,` and more. -/
def parseElems : Nat → List Char → Option (List Json × List Char)
  | 0, _ => none
  | fuel + 1, s =>
    match parseVal fuel s with
    | none => none
    | some (v, rest) =>
      match skipWs rest with
      | [] => none
      | c :: r =>
        if c = ']' then some ([v], r)
        else if c = ',' then
          match parseElems fuel r with
          | none => none
          | some (vs, rest2) => some (v :: vs, rest2)
        else none

/-- Fields of a non-empty object: a quoted key, `:`, a value, then `}`
or `,` and more. -/
def parseFields : Nat → List Char → Option (List (List Char × Json) × List Char)
  | 0, _ => none
  | fuel + 1, s =>
    match skipWs s with
    | [] => none
    | c :: r =>
      if c = '"' then
        match parseStrBody r with
        | none => none
        | some (k, rest) =>
          match skipWs rest with
          | [] => none
          | c2 :: r2 =>
            if c2 = ':' then
              match parseVal fuel r2 with
              | none => none
              | some (v, rest2) =>
                match skipWs rest2 with
                | [] => none
                | c3 :: r3 =>
                  if c3 = '}' then some ([(k, v)], r3)
                  else if c3 = ',' then
                    match parseFields fuel r3 with
                    | none => none
                    | some (fs, rest3) => some ((k, v) :: fs, rest3)
                  else none
            else none
      else none

end

/-- Modelled from the spec: `json11::Json::parse_multi` restricted to a
given fuel — the whole buffer is either a separator-delimited sequence of
complete JSON values (success) or the parse fails as a whole. -/
def parseMultiF : Nat → List Char → Option (List Json)
  | 0, _ => none
  | fuel + 1, s =>
    if skipWs s = [] then some []
    else
      match parseVal (fuel + 1) s with
      | none => none
      | some (v, rest) =>
        match parseMultiF fuel rest with
        | none => none
        | some vs => some (v :: vs)

/-- Modelled from the spec: `json11::Json::parse_multi` — parse the whole
buffer as a sequence of whitespace/null-separated JSON values. -/
def parse_multi (s : List Char) : Option (List Json) :=
  parseMultiF (s.length + 1) s

/-! ### A structural size measure used for parser fuel accounting -/

mutual

/-- Parsing fuel needed for one value (independent of numeric magnitudes
and string lengths, unlike the derived `sizeOf`). -/
def jsize : Json → Nat
  | .null => 1
  | .bool _ => 1
  | .num _ => 1
  | .str _ => 1
  | .arr [] => 1
  | .arr (x :: xs) => 1 + jsizeL x xs
  | .obj [] => 1
  | .obj (f :: fs) => 1 + jsizeF f fs
termination_by v => sizeOf v
decreasing_by all_goals (simp_wf; try omega)

/-- Fuel needed for the elements of a non-empty array. -/
def jsizeL : Json → List Json → Nat
  | x, [] => jsize x + 1
  | x, y :: ys => jsize x + jsizeL y ys
termination_by x xs => 1 + sizeOf x + sizeOf xs
decreasing_by all_goals (simp_wf; try omega)

/-- Fuel needed for the fields of a non-empty object. -/
def jsizeF : (List Char × Json) → List (List Char × Json) → Nat
  | (_, v), [] => jsize v + 1
  | (_, v), f :: fs => jsize v + jsizeF f fs
termination_by f fs => 1 + sizeOf f + sizeOf fs
decreasing_by all_goals (simp_wf; try omega)

end

theorem jsize_pos (v : Json) : 1 ≤ jsize v := by
  cases v with
  | arr l => cases l <;> simp [jsize]
  | obj l => cases l <;> simp [jsize]
  | _ => simp [jsize]

theorem jsizeL_lower (x : Json) (xs : List Json) : jsize x + 1 ≤ jsizeL x xs := by
  cases xs with
  | nil => simp [jsizeL]
  | cons y ys =>
    have h := jsizeL_lower y ys
    have h2 := jsize_pos y
    simp only [jsizeL]
    omega
termination_by sizeOf xs

theorem jsizeF_lower (f : List Char × Json) (fs : List (List Char × Json)) :
    jsize f.2 + 1 ≤ jsizeF f fs := by
  cases fs with
  | nil => cases f; simp [jsizeF]
  | cons g gs =>
    have h := jsizeF_lower g gs
    have h2 := jsize_pos g.2
    cases f; cases g
    simp only [jsizeF] at *
    omega
termination_by sizeOf fs

/-! ### Basic lemmas about separators and digits -/

theorem skipWs_not_ws {c : Char} (r : List Char) (h : isWs c = false) :
    skipWs (c :: r) = c :: r := by
  simp [skipWs, h]

theorem skipWs_ws {c : Char} (r : List Char) (h : isWs c = true) :
    skipWs (c :: r) = skipWs r := by
  simp [skipWs, h]

theorem digitChar_lt (d : Nat) (h : d < 10) :
    isDig (digitChar d) = true ∧ (digitChar d).toNat - 48 = d ∧
      isWs (digitChar d) = false := by
  interval_cases d <;> exact ⟨by decide, by decide, by decide⟩

/-- Lemma: `parseDigits` consumes a maximal digit run and stops at the first
non-digit. -/
theorem parseDigits_run :
    ∀ (ds rest : List Char) (acc : Nat), (∀ c ∈ ds, isDig c = true) →
      (∀ c, rest.head? = some c → isDig c = false) →
      parseDigits acc (ds ++ rest)
        = (ds.foldl (fun a c => a * 10 + (c.toNat - 48)) acc, rest) := by
  intro ds
  induction ds with
  | nil =>
    intro rest acc _ hrest
    cases rest with
    | nil => simp [parseDigits]
    | cons c r => simp [parseDigits, hrest c rfl]
  | cons d ds ih =>
    intro rest acc hds hrest
    have hd : isDig d = true := hds d (by simp)
    simp only [List.cons_append, parseDigits, hd, if_true, List.foldl_cons]
    exact ih rest _ (fun c hc => hds c (by simp [hc])) hrest

/-- Folding the digit-accumulation step over a decimal representation
recovers the represented number. -/
theorem foldl_digit_chars :
    ∀ (L : List Nat) (acc : Nat), (∀ d ∈ L, d < 10) →
      List.foldl (fun a c => a * 10 + (c.toNat - 48)) acc ((L.map digitChar).reverse)
        = acc * 10 ^ L.length + Nat.ofDigits 10 L := by
  intro L
  induction L with
  | nil => intro acc _; simp [Nat.ofDigits]
  | cons d L ih =>
    intro acc hlt
    have hd : d < 10 := hlt d (by simp)
    have hrec := ih acc (fun x hx => hlt x (by simp [hx]))
    simp only [List.map_cons, List.reverse_cons, List.foldl_append, hrec,
      List.foldl_cons, List.foldl_nil, Nat.ofDigits_cons, List.length_cons,
      (digitChar_lt d hd).2.1]
    ring

theorem natChars_digits (n : Nat) : ∀ c ∈ natChars n, isDig c = true := by
  intro c hc
  simp only [natChars, List.mem_reverse, List.mem_map] at hc
  obtain ⟨d, hd, rfl⟩ := hc
  exact (digitChar_lt d (Nat.digits_lt_base (by norm_num) hd)).1

theorem natChars_parse (n : Nat) (rest : List Char)
    (hrest : ∀ c, rest.head? = some c → isDig c = false) :
    parseDigits 0 (natChars n ++ rest) = (n, rest) := by
  rw [parseDigits_run (natChars n) rest 0 (natChars_digits n) hrest]
  simp only [natChars]
  rw [foldl_digit_chars (Nat.digits 10 n) 0 (fun d hd => Nat.digits_lt_base (by norm_num) hd)]
  simp [Nat.ofDigits_digits]

theorem natChars_ne_nil (n : Nat) (h : n ≠ 0) : natChars n ≠ [] := by
  simp only [natChars, ne_eq, List.reverse_eq_nil_iff, List.map_eq_nil_iff]
  exact Nat.digits_ne_nil_iff_ne_zero.mpr h

/-- A decimal digit is not a separator and not any of the structural
characters the parser dispatches on. -/
theorem isDig_facts {c : Char} (h : isDig c = true) :
    isWs c = false ∧ c ≠ 'n' ∧ c ≠ 't' ∧ c ≠ 'f' ∧ c ≠ '"' ∧ c ≠ '-' ∧
      c ≠ '[' ∧ c ≠ '{' ∧ c ≠ ']' ∧ c ≠ '}' ∧ c ≠ ',' ∧ c ≠ ':' := by
  have hb : 48 ≤ c.toNat ∧ c.toNat ≤ 57 := by simpa [isDig] using h
  refine ⟨?_, ?_, ?_, ?_, ?_, ?_, ?_, ?_, ?_, ?_, ?_, ?_⟩
  · simp only [isWs, decide_eq_false_iff_not]
    rintro (rfl | rfl | rfl | rfl | rfl) <;> revert hb <;> decide
  all_goals (rintro rfl; revert hb; decide)

/-- Every serialized value starts with a non-separator character that is
not a closing delimiter. -/
theorem dump_head (v : Json) :
    ∃ c t, dump v = c :: t ∧ isWs c = false ∧ c ≠ ']' ∧ c ≠ '}' := by
  cases v with
  | null => exact ⟨'n', ['u', 'l', 'l'], by simp [dump], by decide, by decide, by decide⟩
  | bool b =>
    cases b with
    | true => exact ⟨'t', ['r', 'u', 'e'], by simp [dump], by decide, by decide, by decide⟩
    | false =>
      exact ⟨'f', ['a', 'l', 's', 'e'], by simp [dump], by decide, by decide, by decide⟩
  | num n =>
    by_cases hneg : n < 0
    · exact ⟨'-', natChars n.natAbs, by simp [dump, dumpInt, hneg], by decide, by decide,
        by decide⟩
    · by_cases hz : n = 0
      · exact ⟨'0', [], by simp [dump, dumpInt, hneg, hz], by decide, by decide, by decide⟩
      · have hne := natChars_ne_nil n.toNat (by omega)
        obtain ⟨c, t, hct⟩ := List.exists_cons_of_ne_nil hne
        have hd : isDig c = true := natChars_digits n.toNat c (by simp [hct])
        have hf := isDig_facts hd
        exact ⟨c, t, by simp [dump, dumpInt, hneg, hz, hct], hf.1, hf.2.2.2.2.2.2.2.2.1,
          hf.2.2.2.2.2.2.2.2.2.1⟩
  | str s =>
    exact ⟨'"', escapeStr s ++ ['"'], by simp [dump, dumpKey], by decide, by decide, by decide⟩
  | arr l =>
    cases l with
    | nil => exact ⟨'[', [']'], by simp [dump], by decide, by decide, by decide⟩
    | cons x xs =>
      exact ⟨'[', dumpElems x xs ++ [']'], by simp [dump], by decide, by decide, by decide⟩
  | obj l =>
    cases l with
    | nil => exact ⟨'{', ['}'], by simp [dump], by decide, by decide, by decide⟩
    | cons f fs =>
      exact ⟨'{', dumpFields f fs ++ ['}'], by simp [dump], by decide, by decide, by decide⟩

/-! ### String literal round trip and truncation -/

/-- Parsing undoes the serializer's string escaping. -/
theorem parseStrBody_escape (s : List Char) (rest : List Char) :
    parseStrBody (escapeStr s ++ '"' :: rest) = some (s, rest) := by
  induction s with
  | nil => simp [escapeStr, parseStrBody]
  | cons c s ih =>
    by_cases hc : c = '"' ∨ c = '\\'
    · simp only [escapeStr, escapeChar, hc, if_true, List.cons_append, List.append_assoc]
      have h1 : ('\\' : Char) ≠ '"' := by decide
      simp [parseStrBody, parseStrEsc, h1, hc, ih]
    · push_neg at hc
      simp only [escapeStr, escapeChar, hc.1, hc.2, or_self, if_false, List.cons_append,
        List.nil_append]
      simp [parseStrBody, hc.1, hc.2, ih]

/-- A serialized string truncated before its closing quote fails to
parse. -/
theorem parseStrBody_take (s : List Char) :
    ∀ k, k ≤ (escapeStr s).length → parseStrBody ((escapeStr s).take k) = none := by
  induction s with
  | nil => intro k _; simp [escapeStr, parseStrBody]
  | cons c s ih =>
    intro k hk
    by_cases hc : c = '"' ∨ c = '\\'
    · have hesc : escapeStr (c :: s) = '\\' :: c :: escapeStr s := by
        simp [escapeStr, escapeChar, hc]
      rw [hesc]
      match k with
      | 0 => simp [parseStrBody]
      | 1 =>
        have h1 : ('\\' : Char) ≠ '"' := by decide
        simp [parseStrBody, parseStrEsc, h1]
      | k + 2 =>
        have h1 : ('\\' : Char) ≠ '"' := by decide
        have hk2 : k ≤ (escapeStr s).length := by
          rw [hesc] at hk; simp at hk; omega
        simp [parseStrBody, parseStrEsc, h1, hc, ih k hk2]
    · push_neg at hc
      have hesc : escapeStr (c :: s) = c :: escapeStr s := by
        simp [escapeStr, escapeChar, hc.1, hc.2]
      rw [hesc]
      match k with
      | 0 => simp [parseStrBody]
      | k + 1 =>
        have hk2 : k ≤ (escapeStr s).length := by
          rw [hesc] at hk; simp at hk; omega
        simp [parseStrBody, hc.1, hc.2, ih k hk2]

/-! ### Round trip: the parser inverts the serializer -/

theorem numStop_no_digit {r : List Char} (h : numStop r = true) :
    ∀ c, r.head? = some c → isDig c = false := by
  intro c hc
  cases r with
  | nil => simp at hc
  | cons d t =>
    simp only [List.head?_cons, Option.some.injEq] at hc
    subst hc
    simp only [numStop, Bool.not_eq_true', Bool.or_eq_false_iff] at h
    exact h.1.1.1

/-- A serialized integer parses back to itself. -/
theorem parseVal_dumpInt (fuel : Nat) (n : Int) (rest : List Char)
    (hstop : numStop rest = true) :
    parseVal (fuel + 1) (dumpInt n ++ rest) = some (.num n, rest) := by
  rcases lt_trichotomy n 0 with hneg | hz | hpos
  · have habs : n.natAbs ≠ 0 := by omega
    obtain ⟨c, t, hct⟩ := List.exists_cons_of_ne_nil (natChars_ne_nil n.natAbs habs)
    have hd : isDig c = true := natChars_digits n.natAbs c (by simp [hct])
    have hparse := natChars_parse n.natAbs rest (numStop_no_digit hstop)
    rw [hct] at hparse
    simp only [List.cons_append] at hparse
    have hval : -((n.natAbs : Nat) : Int) = n := by omega
    simp only [dumpInt, if_pos hneg, List.cons_append, parseVal]
    rw [skipWs_not_ws _ (by decide), hct]
    simp [hd, hparse, hstop]
    rw [abs_of_neg hneg]
    ring
  · subst hz
    have h0 : parseDigits 0 (['0'] ++ rest) = (0, rest) := by
      rw [parseDigits_run ['0'] rest 0 (by intro c hc; simp at hc; subst hc; decide)
        (numStop_no_digit hstop)]
      simp
    have hdump : dumpInt 0 = ['0'] := by norm_num [dumpInt]
    rw [hdump]
    simp only [List.cons_append, List.nil_append, parseVal]
    rw [skipWs_not_ws _ (by decide)]
    simp only [List.singleton_append] at h0
    simp [h0, hstop, (by decide : isDig '0' = true)]
  · have hneg : ¬n < 0 := by omega
    have hz : n ≠ 0 := by omega
    have htn : n.toNat ≠ 0 := by omega
    obtain ⟨c, t, hct⟩ := List.exists_cons_of_ne_nil (natChars_ne_nil n.toNat htn)
    have hd : isDig c = true := natChars_digits n.toNat c (by simp [hct])
    have hf := isDig_facts hd
    have hparse := natChars_parse n.toNat rest (numStop_no_digit hstop)
    rw [hct] at hparse
    simp only [List.cons_append] at hparse
    have hval : ((n.toNat : Nat) : Int) = n := by omega
    simp only [dumpInt, if_neg hneg, if_neg hz, parseVal, hct, List.cons_append]
    rw [skipWs_not_ws _ hf.1]
    simp only [if_neg hf.2.1, if_neg hf.2.2.1, if_neg hf.2.2.2.1, if_neg hf.2.2.2.2.1,
      if_neg hf.2.2.2.2.2.1, hd, if_true]
    simp [hparse, hstop, hval]

/-- The first character of a serialized non-empty array element list is
not a separator and not a closing bracket. -/
theorem dumpElems_head (x : Json) (xs : List Json) :
    ∃ c t, dumpElems x xs = c :: t ∧ isWs c = false ∧ c ≠ ']' := by
  obtain ⟨c, t, hct, hws, hr, _⟩ := dump_head x
  cases xs with
  | nil => exact ⟨c, t, by simp [dumpElems, hct], hws, hr⟩
  | cons y ys => exact ⟨c, t ++ ',' :: dumpElems y ys, by simp [dumpElems, hct], hws, hr⟩

/-- Round trip, bundled over values, array elements and object fields,
by induction on the parsing fuel. -/
theorem parse_dump_bundle (fuel : Nat) :
    (∀ v rest, jsize v ≤ fuel → numStop rest = true →
       parseVal fuel (dump v ++ rest) = some (v, rest)) ∧
    (∀ x xs rest, jsizeL x xs ≤ fuel →
       parseElems fuel (dumpElems x xs ++ ']' :: rest) = some (x :: xs, rest)) ∧
    (∀ f fs rest, jsizeF f fs ≤ fuel →
       parseFields fuel (dumpFields f fs ++ '}' :: rest) = some (f :: fs, rest)) := by
  induction fuel with
  | zero =>
    refine ⟨fun v _ h _ => absurd h (by have := jsize_pos v; omega),
      fun x xs _ h => absurd h (by have := jsizeL_lower x xs; have := jsize_pos x; omega),
      fun f fs _ h => absurd h (by have := jsizeF_lower f fs; have := jsize_pos f.2; omega)⟩
  | succ fuel ih =>
    obtain ⟨ihV, ihE, ihF⟩ := ih
    refine ⟨?_, ?_, ?_⟩
    · intro v rest hsz hstop
      cases v with
      | null =>
        simp only [dump, List.cons_append, parseVal]
        rw [skipWs_not_ws _ (by decide)]
        simp
      | bool b =>
        cases b with
        | true =>
          simp only [dump_bool_true, List.cons_append, parseVal]
          rw [skipWs_not_ws _ (by decide)]
          simp
        | false =>
          simp only [dump_bool_false, List.cons_append, parseVal]
          rw [skipWs_not_ws _ (by decide)]
          simp
      | num n => simpa [dump] using parseVal_dumpInt fuel n rest hstop
      | str s =>
        simp only [dump, dumpKey, List.cons_append, List.append_assoc, List.singleton_append,
          parseVal]
        rw [skipWs_not_ws _ (by decide)]
        simp [parseStrBody_escape]
      | arr l =>
        cases l with
        | nil =>
          simp only [dump, List.cons_append, parseVal]
          rw [skipWs_not_ws _ (by decide)]
          simp only [List.cons_append]
          rw [skipWs_not_ws _ (by decide)]
          simp [(by decide : isDig '[' = false)]
        | cons x xs =>
          obtain ⟨c, t, hct, hws, hr⟩ := dumpElems_head x xs
          have hszL : jsizeL x xs ≤ fuel := by
            simp only [jsize] at hsz; omega
          have hE := ihE x xs rest hszL
          rw [hct] at hE
          simp only [List.cons_append] at hE
          simp only [dump, List.cons_append, List.append_assoc, List.singleton_append,
            parseVal, hct]
          simp [skipWs, (by decide : isWs '[' = false), hws, hr,
            (by decide : isDig '[' = false), hE]
      | obj l =>
        cases l with
        | nil =>
          simp only [dump, List.cons_append, parseVal]
          rw [skipWs_not_ws _ (by decide)]
          simp only [List.cons_append]
          rw [skipWs_not_ws _ (by decide)]
          simp [(by decide : isDig '{' = false)]
        | cons f fs =>
          have hszF : jsizeF f fs ≤ fuel := by
            simp only [jsize] at hsz; omega
          obtain ⟨k, v⟩ := f
          have hhead : ∃ t, dumpFields (k, v) fs = '"' :: t := by
            cases fs <;> simp [dumpFields, dumpKey]
          obtain ⟨t, hct⟩ := hhead
          have hF := ihF (k, v) fs rest hszF
          rw [hct] at hF
          simp only [List.cons_append] at hF
          simp only [dump, List.cons_append, List.append_assoc, List.singleton_append,
            parseVal, hct]
          simp [skipWs, (by decide : isWs '{' = false), (by decide : isWs '"' = false),
            (by decide : isDig '{' = false), (by decide : ('"' : Char) ≠ '}'), hF]
    · intro x xs rest hsz
      cases xs with
      | nil =>
        have hszV : jsize x ≤ fuel := by
          have := jsizeL_lower x ([] : List Json); simp only [jsizeL] at hsz ⊢; omega
        simp only [dumpElems, parseElems]
        rw [ihV x (']' :: rest) hszV (by simp [numStop, isDig])]
        simp [skipWs, (by decide : isWs ']' = false)]
      | cons y ys =>
        have hszV : jsize x ≤ fuel := by
          have := jsizeL_lower y ys; simp only [jsizeL] at hsz; omega
        have hszL : jsizeL y ys ≤ fuel := by
          have := jsize_pos x; simp only [jsizeL] at hsz; omega
        simp only [dumpElems, parseElems, List.append_assoc, List.cons_append]
        rw [ihV x (',' :: (dumpElems y ys ++ ']' :: rest)) hszV (by simp [numStop, isDig])]
        simp [skipWs, (by decide : isWs ',' = false), (by decide : (',' : Char) ≠ ']'),
          ihE y ys rest hszL]
    · intro f fs rest hsz
      obtain ⟨k, v⟩ := f
      cases fs with
      | nil =>
        have hszV : jsize v ≤ fuel := by simp only [jsizeF] at hsz; omega
        simp only [dumpFields, dumpKey, parseFields, List.cons_append, List.append_assoc,
          List.singleton_append]
        rw [skipWs_not_ws _ (by decide)]
        simp only [if_pos rfl]
        rw [parseStrBody_escape]
        have hV := ihV v ('}' :: rest) hszV (by simp [numStop, isDig])
        simp [skipWs, (by decide : isWs ':' = false), (by decide : isWs '}' = false), hV]
      | cons g gs =>
        have hszV : jsize v ≤ fuel := by
          have := jsizeF_lower g gs; have := jsize_pos g.2
          simp only [jsizeF] at hsz; omega
        have hszF : jsizeF g gs ≤ fuel := by
          have := jsize_pos v; simp only [jsizeF] at hsz; omega
        simp only [dumpFields, dumpKey, parseFields, List.cons_append, List.append_assoc,
          List.singleton_append]
        rw [skipWs_not_ws _ (by decide)]
        simp only [if_pos rfl]
        rw [parseStrBody_escape]
        have hV := ihV v (',' :: (dumpFields g gs ++ '}' :: rest)) hszV
          (by simp [numStop, isDig])
        simp [skipWs, (by decide : isWs ':' = false), (by decide : isWs ',' = false),
          (by decide : (',' : Char) ≠ '}'), hV, ihF g gs rest hszF]

theorem parseVal_nil (fuel : Nat) : parseVal fuel [] = none := by
  cases fuel <;> simp [parseVal, skipWs]

theorem parseElems_nil (fuel : Nat) : parseElems fuel [] = none := by
  cases fuel with
  | zero => simp [parseElems]
  | succ f => simp [parseElems, parseVal_nil]

theorem parseFields_nil (fuel : Nat) : parseFields fuel [] = none := by
  cases fuel <;> simp [parseFields, skipWs]

/-- At any fuel, parsing a serialized value followed by a safe rest
either fails (fuel exhaustion) or produces exactly the value. -/
theorem parse_dump_or_none (fuel : Nat) :
    (∀ v rest, numStop rest = true →
       parseVal fuel (dump v ++ rest) = none ∨
         parseVal fuel (dump v ++ rest) = some (v, rest)) ∧
    (∀ x xs rest,
       parseElems fuel (dumpElems x xs ++ ']' :: rest) = none ∨
         parseElems fuel (dumpElems x xs ++ ']' :: rest) = some (x :: xs, rest)) ∧
    (∀ f fs rest,
       parseFields fuel (dumpFields f fs ++ '}' :: rest) = none ∨
         parseFields fuel (dumpFields f fs ++ '}' :: rest) = some (f :: fs, rest)) := by
  induction fuel with
  | zero => exact ⟨fun _ _ _ => Or.inl (by simp [parseVal]),
      fun _ _ _ => Or.inl (by simp [parseElems]), fun _ _ _ => Or.inl (by simp [parseFields])⟩
  | succ fuel ih =>
    obtain ⟨ihV, ihE, ihF⟩ := ih
    refine ⟨?_, ?_, ?_⟩
    · intro v rest hstop
      cases v with
      | null =>
        right
        simp only [dump, List.cons_append, parseVal]
        rw [skipWs_not_ws _ (by decide)]
        simp
      | bool b =>
        cases b with
        | true =>
          right
          simp only [dump_bool_true, List.cons_append, parseVal]
          rw [skipWs_not_ws _ (by decide)]
          simp
        | false =>
          right
          simp only [dump_bool_false, List.cons_append, parseVal]
          rw [skipWs_not_ws _ (by decide)]
          simp
      | num n => exact Or.inr (by simpa [dump] using parseVal_dumpInt fuel n rest hstop)
      | str s =>
        right
        simp only [dump, dumpKey, List.cons_append, List.append_assoc, List.singleton_append,
          parseVal]
        rw [skipWs_not_ws _ (by decide)]
        simp [parseStrBody_escape]
      | arr l =>
        cases l with
        | nil =>
          right
          simp only [dump, List.cons_append, parseVal]
          rw [skipWs_not_ws _ (by decide)]
          simp only [List.cons_append]
          rw [skipWs_not_ws _ (by decide)]
          simp [(by decide : isDig '[' = false)]
        | cons x xs =>
          obtain ⟨c, t, hct, hws, hr⟩ := dumpElems_head x xs
          rcases ihE x xs rest with hE | hE
          · left
            rw [hct] at hE
            simp only [List.cons_append] at hE
            simp only [dump, List.cons_append, List.append_assoc, List.singleton_append,
              parseVal, hct]
            simp [skipWs, (by decide : isWs '[' = false), hws, hr,
              (by decide : isDig '[' = false), hE]
          · right
            rw [hct] at hE
            simp only [List.cons_append] at hE
            simp only [dump, List.cons_append, List.append_assoc, List.singleton_append,
              parseVal, hct]
            simp [skipWs, (by decide : isWs '[' = false), hws, hr,
              (by decide : isDig '[' = false), hE]
      | obj l =>
        cases l with
        | nil =>
          right
          simp only [dump, List.cons_append, parseVal]
          rw [skipWs_not_ws _ (by decide)]
          simp only [List.cons_append]
          rw [skipWs_not_ws _ (by decide)]
          simp [(by decide : isDig '{' = false)]
        | cons f fs =>
          obtain ⟨k, v⟩ := f
          have hhead : ∃ t, dumpFields (k, v) fs = '"' :: t := by
            cases fs <;> simp [dumpFields, dumpKey]
          obtain ⟨t, hct⟩ := hhead
          rcases ihF (k, v) fs rest with hF | hF
          · left
            rw [hct] at hF
            simp only [List.cons_append] at hF
            simp only [dump, List.cons_append, List.append_assoc, List.singleton_append,
              parseVal, hct]
            simp [skipWs, (by decide : isWs '{' = false), (by decide : isWs '"' = false),
              (by decide : isDig '{' = false), (by decide : ('"' : Char) ≠ '}'), hF]
          · right
            rw [hct] at hF
            simp only [List.cons_append] at hF
            simp only [dump, List.cons_append, List.append_assoc, List.singleton_append,
              parseVal, hct]
            simp [skipWs, (by decide : isWs '{' = false), (by decide : isWs '"' = false),
              (by decide : isDig '{' = false), (by decide : ('"' : Char) ≠ '}'), hF]
    · intro x xs rest
      cases xs with
      | nil =>
        rcases ihV x (']' :: rest) (by simp [numStop, isDig]) with hV | hV
        · left
          simp only [dumpElems, parseElems]
          rw [hV]
        · right
          simp only [dumpElems, parseElems]
          rw [hV]
          simp [skipWs, (by decide : isWs ']' = false)]
      | cons y ys =>
        rcases ihV x (',' :: (dumpElems y ys ++ ']' :: rest)) (by simp [numStop, isDig])
          with hV | hV
        · left
          simp only [dumpElems, parseElems, List.append_assoc, List.cons_append]
          rw [hV]
        · rcases ihE y ys rest with hE | hE
          · left
            simp only [dumpElems, parseElems, List.append_assoc, List.cons_append]
            rw [hV]
            simp [skipWs, (by decide : isWs ',' = false), (by decide : (',' : Char) ≠ ']'),
              hE]
          · right
            simp only [dumpElems, parseElems, List.append_assoc, List.cons_append]
            rw [hV]
            simp [skipWs, (by decide : isWs ',' = false), (by decide : (',' : Char) ≠ ']'),
              hE]
    · intro f fs rest
      obtain ⟨k, v⟩ := f
      cases fs with
      | nil =>
        rcases ihV v ('}' :: rest) (by simp [numStop, isDig]) with hV | hV
        · left
          simp only [dumpFields, dumpKey, parseFields, List.cons_append, List.append_assoc,
            List.singleton_append]
          rw [skipWs_not_ws _ (by decide)]
          simp only [if_pos rfl]
          rw [parseStrBody_escape]
          simp [skipWs, (by decide : isWs ':' = false), hV]
        · right
          simp only [dumpFields, dumpKey, parseFields, List.cons_append, List.append_assoc,
            List.singleton_append]
          rw [skipWs_not_ws _ (by decide)]
          simp only [if_pos rfl]
          rw [parseStrBody_escape]
          simp [skipWs, (by decide : isWs ':' = false), (by decide : isWs '}' = false), hV]
      | cons g gs =>
        rcases ihV v (',' :: (dumpFields g gs ++ '}' :: rest)) (by simp [numStop, isDig])
          with hV | hV
        · left
          simp only [dumpFields, dumpKey, parseFields, List.cons_append, List.append_assoc,
            List.singleton_append]
          rw [skipWs_not_ws _ (by decide)]
          simp only [if_pos rfl]
          rw [parseStrBody_escape]
          simp [skipWs, (by decide : isWs ':' = false), hV]
        · rcases ihF g gs rest with hF | hF
          · left
            simp only [dumpFields, dumpKey, parseFields, List.cons_append, List.append_assoc,
              List.singleton_append]
            rw [skipWs_not_ws _ (by decide)]
            simp only [if_pos rfl]
            rw [parseStrBody_escape]
            simp [skipWs, (by decide : isWs ':' = false), (by decide : isWs ',' = false),
              (by decide : (',' : Char) ≠ '}'), hV, hF]
          · right
            simp only [dumpFields, dumpKey, parseFields, List.cons_append, List.append_assoc,
              List.singleton_append]
            rw [skipWs_not_ws _ (by decide)]
            simp only [if_pos rfl]
            rw [parseStrBody_escape]
            simp [skipWs, (by decide : isWs ':' = false), (by decide : isWs ',' = false),
              (by decide : (',' : Char) ≠ '}'), hV, hF]

/-! ### Truncated serialized values never parse -/

theorem take_cons_pos {α : Type} (c : α) (t : List α) (j : Nat) (h : 1 ≤ j) :
    (c :: t).take j = c :: t.take (j - 1) := by
  rw [show j = (j - 1) + 1 by omega, List.take_succ_cons]
  simp

theorem parseVal_dump_or (fuel : Nat) (x : Json) :
    parseVal fuel (dump x) = none ∨ parseVal fuel (dump x) = some (x, []) := by
  have h := (parse_dump_or_none fuel).1 x [] (by simp [numStop])
  simpa using h

/-- Parsing a pure run of digits yields a number consuming everything. -/
theorem parseVal_all_digits (fuel : Nat) (c : Char) (t : List Char)
    (hc : isDig c = true) (ht : ∀ x ∈ t, isDig x = true) :
    ∃ m : Nat, parseVal (fuel + 1) (c :: t) = some (.num (m : Int), []) := by
  have hf := isDig_facts hc
  have hall : ∀ x ∈ c :: t, isDig x = true := by
    intro x hx; rcases List.mem_cons.mp hx with rfl | hx'
    · exact hc
    · exact ht x hx'
  have hrun := parseDigits_run (c :: t) [] 0 hall (by simp)
  simp only [List.append_nil] at hrun
  refine ⟨(c :: t).foldl (fun a d => a * 10 + (d.toNat - 48)) 0, ?_⟩
  simp only [parseVal]
  rw [skipWs_not_ws _ hf.1]
  simp only [if_neg hf.2.1, if_neg hf.2.2.1, if_neg hf.2.2.2.1, if_neg hf.2.2.2.2.1,
    if_neg hf.2.2.2.2.2.1, hc, if_true]
  simp [hrun, numStop]

/-- Parsing a minus sign followed by a pure run of digits yields a number
consuming everything. -/
theorem parseVal_neg_digits (fuel : Nat) (c : Char) (t : List Char)
    (hc : isDig c = true) (ht : ∀ x ∈ t, isDig x = true) :
    ∃ m : Nat, parseVal (fuel + 1) ('-' :: c :: t) = some (.num (-(m : Int)), []) := by
  have hall : ∀ x ∈ c :: t, isDig x = true := by
    intro x hx; rcases List.mem_cons.mp hx with rfl | hx'
    · exact hc
    · exact ht x hx'
  have hrun := parseDigits_run (c :: t) [] 0 hall (by simp)
  simp only [List.append_nil] at hrun
  refine ⟨(c :: t).foldl (fun a d => a * 10 + (d.toNat - 48)) 0, ?_⟩
  simp only [parseVal]
  rw [skipWs_not_ws _ (by decide)]
  simp [hc, hrun, numStop]

/-- No strict prefix of a serialized value parses to anything but a bare
number consuming the whole prefix; truncated element and field lists
never parse at all. -/
theorem parse_take_bundle (n : Nat) :
    (∀ v, jsize v ≤ n → ∀ fuel k, k < (dump v).length →
       parseVal fuel ((dump v).take k) = none ∨
         ∃ i m : Int, v = .num i ∧ parseVal fuel ((dump v).take k) = some (.num m, [])) ∧
    (∀ x xs, jsizeL x xs ≤ n → ∀ fuel k, k ≤ (dumpElems x xs).length →
       parseElems fuel ((dumpElems x xs).take k) = none) ∧
    (∀ f fs, jsizeF f fs ≤ n → ∀ fuel k, k ≤ (dumpFields f fs).length →
       parseFields fuel ((dumpFields f fs).take k) = none) := by
  induction n with
  | zero =>
    exact ⟨fun v h => absurd h (by have := jsize_pos v; omega),
      fun x xs h => absurd h (by have := jsizeL_lower x xs; have := jsize_pos x; omega),
      fun f fs h => absurd h (by have := jsizeF_lower f fs; have := jsize_pos f.2; omega)⟩
  | succ n ih =>
    obtain ⟨ihV, ihE, ihF⟩ := ih
    refine ⟨?_, ?_, ?_⟩
    · intro v hsz fuel k hk
      cases v with
      | null =>
        left
        have hd : dump Json.null = ['n', 'u', 'l', 'l'] := by simp [dump]
        have hk4 : k < 4 := by simpa [hd] using hk
        rw [hd]
        interval_cases k <;> cases fuel <;> simp [parseVal, skipWs, isWs, isDig]
      | bool b =>
        left
        cases b with
        | true =>
          have hd : dump (Json.bool true) = ['t', 'r', 'u', 'e'] := by simp [dump]
          have hk4 : k < 4 := by simpa [hd] using hk
          rw [hd]
          interval_cases k <;> cases fuel <;> simp [parseVal, skipWs, isWs, isDig]
        | false =>
          have hd : dump (Json.bool false) = ['f', 'a', 'l', 's', 'e'] := by simp [dump]
          have hk5 : k < 5 := by simpa [hd] using hk
          rw [hd]
          interval_cases k <;> cases fuel <;> simp [parseVal, skipWs, isWs, isDig]
      | num m =>
        cases k with
        | zero => left; simp [parseVal_nil]
        | succ k =>
          cases fuel with
          | zero => left; simp [parseVal]
          | succ fuel =>
            by_cases hneg : m < 0
            · have habs : m.natAbs ≠ 0 := by omega
              obtain ⟨c, t, hct⟩ :=
                List.exists_cons_of_ne_nil (natChars_ne_nil m.natAbs habs)
              have hdump : dump (Json.num m) = '-' :: c :: t := by
                simp [dump, dumpInt, hneg, hct]
              rw [hdump] at hk ⊢
              cases k with
              | zero =>
                left
                simp only [List.take_succ_cons, List.take_zero, parseVal]
                rw [skipWs_not_ws _ (by decide)]
                simp
              | succ k =>
                right
                simp only [List.take_succ_cons]
                have hdig : ∀ x ∈ t.take k, isDig x = true := by
                  intro x hx
                  have hmem : x ∈ natChars m.natAbs := by
                    rw [hct]
                    exact List.mem_cons_of_mem c ((List.take_sublist k t).subset hx)
                  exact natChars_digits m.natAbs x hmem
                have hc : isDig c = true := natChars_digits m.natAbs c (by simp [hct])
                obtain ⟨m2, hm2⟩ := parseVal_neg_digits fuel c (t.take k) hc hdig
                exact ⟨m, -(m2 : Int), rfl, by rw [hm2]⟩
            · by_cases hz : m = 0
              · subst hz
                have hdump : dump (Json.num 0) = ['0'] := by
                  norm_num [dump, dumpInt]
                rw [hdump] at hk
                simp at hk
              · have htn : m.toNat ≠ 0 := by omega
                obtain ⟨c, t, hct⟩ :=
                  List.exists_cons_of_ne_nil (natChars_ne_nil m.toNat htn)
                have hdump : dump (Json.num m) = c :: t := by
                  simp [dump, dumpInt, hneg, hz, hct]
                rw [hdump] at hk ⊢
                right
                rw [take_cons_pos c t (k + 1) (by omega)]
                simp only [Nat.add_sub_cancel]
                have hdig : ∀ x ∈ t.take k, isDig x = true := by
                  intro x hx
                  have hmem : x ∈ natChars m.toNat := by
                    rw [hct]
                    exact List.mem_cons_of_mem c ((List.take_sublist k t).subset hx)
                  exact natChars_digits m.toNat x hmem
                have hc : isDig c = true := natChars_digits m.toNat c (by simp [hct])
                obtain ⟨m2, hm2⟩ := parseVal_all_digits fuel c (t.take k) hc hdig
                exact ⟨m, (m2 : Int), rfl, by rw [hm2]⟩
      | str s =>
        left
        have hlen : (dump (Json.str s)).length = (escapeStr s).length + 2 := by
          simp [dump, dumpKey]
        cases k with
        | zero => simp [parseVal_nil]
        | succ k =>
          cases fuel with
          | zero => simp [parseVal]
          | succ fuel =>
            have hX : (dump (Json.str s)).take (k + 1) = '"' :: (escapeStr s).take k := by
              simp only [dump, dumpKey, List.take_succ_cons]
              rw [List.take_append_of_le_length (by omega)]
            rw [hX]
            simp only [parseVal]
            rw [skipWs_not_ws _ (by decide)]
            simp [parseStrBody_take s k (by omega)]
      | arr l =>
        cases l with
        | nil =>
          left
          have hd : dump (Json.arr []) = ['[', ']'] := by simp [dump]
          have hk2 : k < 2 := by simpa [hd] using hk
          rw [hd]
          interval_cases k <;> cases fuel <;> simp [parseVal, skipWs, isWs, isDig]
        | cons x xs =>
          left
          have hlen : (dump (Json.arr (x :: xs))).length = (dumpElems x xs).length + 2 := by
            simp [dump]
          cases k with
          | zero => simp [parseVal_nil]
          | succ k =>
            cases fuel with
            | zero => simp [parseVal]
            | succ fuel =>
              have hX : (dump (Json.arr (x :: xs))).take (k + 1)
                  = '[' :: (dumpElems x xs).take k := by
                simp only [dump, List.take_succ_cons]
                rw [List.take_append_of_le_length (by omega)]
              rw [hX]
              have hE : parseElems fuel ((dumpElems x xs).take k) = none :=
                ihE x xs (by simp only [jsize] at hsz; omega) fuel k (by omega)
              simp only [parseVal]
              rw [skipWs_not_ws _ (by decide)]
              cases k with
              | zero => simp [skipWs, isDig]
              | succ k2 =>
                obtain ⟨c, t, hct, hws, hr⟩ := dumpElems_head x xs
                rw [hct, take_cons_pos c t (k2 + 1) (by omega)]
                rw [hct, take_cons_pos c t (k2 + 1) (by omega)] at hE
                simp only [Nat.add_sub_cancel] at hE ⊢
                rw [skipWs_not_ws _ hws]
                simp [hr, hE, (by decide : isDig '[' = false)]
      | obj l =>
        cases l with
        | nil =>
          left
          have hd : dump (Json.obj []) = ['{', '}'] := by simp [dump]
          have hk2 : k < 2 := by simpa [hd] using hk
          rw [hd]
          interval_cases k <;> cases fuel <;> simp [parseVal, skipWs, isWs, isDig]
        | cons f fs =>
          left
          have hlen : (dump (Json.obj (f :: fs))).length = (dumpFields f fs).length + 2 := by
            simp [dump]
          cases k with
          | zero => simp [parseVal_nil]
          | succ k =>
            cases fuel with
            | zero => simp [parseVal]
            | succ fuel =>
              have hX : (dump (Json.obj (f :: fs))).take (k + 1)
                  = '{' :: (dumpFields f fs).take k := by
                simp only [dump, List.take_succ_cons]
                rw [List.take_append_of_le_length (by omega)]
              rw [hX]
              have hF : parseFields fuel ((dumpFields f fs).take k) = none :=
                ihF f fs (by simp only [jsize] at hsz; omega) fuel k (by omega)
              simp only [parseVal]
              rw [skipWs_not_ws _ (by decide)]
              cases k with
              | zero => simp [skipWs, isDig]
              | succ k2 =>
                obtain ⟨k0, v0⟩ := f
                have hhead : ∃ t, dumpFields (k0, v0) fs = '"' :: t := by
                  cases fs <;> simp [dumpFields, dumpKey]
                obtain ⟨t, hct⟩ := hhead
                rw [hct, take_cons_pos '"' t (k2 + 1) (by omega)]
                rw [hct, take_cons_pos '"' t (k2 + 1) (by omega)] at hF
                simp only [Nat.add_sub_cancel] at hF ⊢
                rw [skipWs_not_ws _ (by decide)]
                simp [hF, (by decide : isDig '{' = false),
                  (by decide : ('"' : Char) ≠ '}')]
    · intro x xs hsz fuel k hk
      cases fuel with
      | zero => simp [parseElems]
      | succ fuel =>
        have hszV : jsize x ≤ n := by
          have := jsizeL_lower x xs; omega
        cases xs with
        | nil =>
          simp only [dumpElems] at hk ⊢
          rcases Nat.lt_or_ge k (dump x).length with hlt | hge
          · rcases ihV x hszV fuel k hlt with hV | ⟨i, m, hvi, hV⟩
            · simp [parseElems, hV]
            · simp [parseElems, hV, skipWs]
          · have hkeq : k = (dump x).length := by omega
            subst hkeq
            rw [List.take_length]
            rcases parseVal_dump_or fuel x with hV | hV
            · simp [parseElems, hV]
            · simp [parseElems, hV, skipWs]
        | cons y ys =>
          have hlen : (dumpElems x (y :: ys)).length
              = (dump x).length + 1 + (dumpElems y ys).length := by
            simp [dumpElems]; omega
          rcases Nat.lt_or_ge k ((dump x).length + 1) with hlt | hge
          · -- inside the first element (or exactly it)
            have hX : (dumpElems x (y :: ys)).take k = (dump x).take k := by
              simp only [dumpElems]
              rw [List.take_append_of_le_length (by omega)]
            rw [hX]
            rcases Nat.lt_or_ge k (dump x).length with hlt2 | hge2
            · rcases ihV x hszV fuel k hlt2 with hV | ⟨i, m, hvi, hV⟩
              · simp [parseElems, hV]
              · simp [parseElems, hV, skipWs]
            · have hkeq : k = (dump x).length := by omega
              subst hkeq
              rw [List.take_length]
              rcases parseVal_dump_or fuel x with hV | hV
              · simp [parseElems, hV]
              · simp [parseElems, hV, skipWs]
          · -- past the comma
            have hX : (dumpElems x (y :: ys)).take k
                = dump x ++ ',' :: (dumpElems y ys).take (k - (dump x).length - 1) := by
              simp only [dumpElems]
              rw [show k = (dump x).length + (k - (dump x).length) by omega,
                List.take_append]
              rw [take_cons_pos ',' (dumpElems y ys) (k - (dump x).length) (by omega)]
              have harith : (dump x).length + (k - (dump x).length) - (dump x).length - 1
                  = k - (dump x).length - 1 := by omega
              rw [harith]
            rw [hX]
            have hsz2 : jsize x + jsizeL y ys ≤ n + 1 := by
              simpa [jsizeL] using hsz
            have hE2 : parseElems fuel ((dumpElems y ys).take (k - (dump x).length - 1))
                = none := by
              refine ihE y ys (by have := jsize_pos x; omega) fuel _ ?_
              omega
            rcases (parse_dump_or_none fuel).1 x
                (',' :: (dumpElems y ys).take (k - (dump x).length - 1))
                (by simp [numStop, isDig]) with hV | hV
            · simp [parseElems, hV]
            · simp [parseElems, hV, skipWs, (by decide : isWs ',' = false),
                (by decide : (',' : Char) ≠ ']'), hE2]
    · intro f fs hsz fuel k hk
      obtain ⟨k0, v0⟩ := f
      cases fuel with
      | zero => simp [parseFields]
      | succ fuel =>
        have hszV : jsize v0 ≤ n := by
          have := jsizeF_lower (k0, v0) fs; simp at this; omega
      -- regions of the truncation point
        have hkey : dumpKey k0 = '"' :: (escapeStr k0 ++ ['"']) := rfl
        have hklen : (dumpKey k0).length = (escapeStr k0).length + 2 := by
          simp [dumpKey]
        cases k with
        | zero => simp [parseFields_nil]
        | succ k =>
          rcases Nat.lt_or_ge (k + 1) (dumpKey k0).length with hrA | hrA
          · -- truncated inside the quoted key
            have hX : (dumpFields (k0, v0) fs).take (k + 1)
                = '"' :: (escapeStr k0).take k := by
              cases fs <;>
                (simp only [dumpFields, hkey, List.cons_append, List.take_succ_cons,
                  List.append_assoc]
                 rw [List.take_append_of_le_length (by omega)])
            rw [hX]
            simp only [parseFields]
            rw [skipWs_not_ws _ (by decide)]
            simp [parseStrBody_take k0 k (by omega)]
          · rcases Nat.lt_or_ge (k + 1) ((dumpKey k0).length + 1) with hrB | hrB
            · -- exactly the quoted key, colon missing
              have hkeq : k + 1 = (dumpKey k0).length := by omega
              have hX : (dumpFields (k0, v0) fs).take (k + 1) = dumpKey k0 := by
                rw [hkeq]
                cases fs <;> simp only [dumpFields, List.append_assoc, List.cons_append] <;>
                  rw [List.take_append_of_le_length (le_refl _), List.take_length]
              rw [hX, hkey]
              simp only [parseFields]
              rw [skipWs_not_ws _ (by decide)]
              simp [parseStrBody_escape, skipWs]
            · rcases Nat.lt_or_ge (k + 1) ((dumpKey k0).length + 2) with hrC | hrC
              · -- key and colon, value missing
                have hkeq : k + 1 = (dumpKey k0).length + 1 := by omega
                have hX : (dumpFields (k0, v0) fs).take (k + 1)
                    = dumpKey k0 ++ [':'] := by
                  rw [hkeq]
                  cases fs <;>
                    simp only [dumpFields, List.append_assoc, List.cons_append] <;>
                    rw [List.take_append] <;> simp [List.take_succ_cons]
                rw [hX, hkey]
                simp only [List.cons_append, List.append_assoc, List.singleton_append,
                  parseFields]
                rw [skipWs_not_ws _ (by decide)]
                simp [parseStrBody_escape, skipWs, (by decide : isWs ':' = false),
                  parseVal_nil]
              · -- inside (or past) the value
                have hi : k + 1 = (dumpKey k0).length + 1 + (k - (dumpKey k0).length) := by
                  omega
                set i := k - (dumpKey k0).length with hidef
                have hi1 : 1 ≤ i := by omega
                cases fs with
                | nil =>
                  have hflen : (dumpFields (k0, v0) []).length
                      = (dumpKey k0).length + 1 + (dump v0).length := by
                    simp [dumpFields]; omega
                  have hX : (dumpFields (k0, v0) []).take (k + 1)
                      = dumpKey k0 ++ ':' :: (dump v0).take i := by
                    simp only [dumpFields]
                    rw [hi, show (dumpKey k0).length + 1 + i
                        = (dumpKey k0).length + (1 + i) by omega, List.take_append]
                    rw [take_cons_pos ':' (dump v0) (1 + i) (by omega)]
                    simp only [Nat.add_sub_cancel_left]
                  rw [hX, hkey]
                  simp only [List.cons_append, List.append_assoc, List.singleton_append,
                    parseFields]
                  rw [skipWs_not_ws _ (by decide)]
                  rcases Nat.lt_or_ge i (dump v0).length with hlt | hge2
                  · rcases ihV v0 hszV fuel i hlt with hV | ⟨i, m, hvi, hV⟩
                    · simp [parseStrBody_escape, skipWs, (by decide : isWs ':' = false), hV]
                    · simp [parseStrBody_escape, skipWs, (by decide : isWs ':' = false), hV]
                  · have hieq : i = (dump v0).length := by omega
                    rw [hieq, List.take_length]
                    rcases parseVal_dump_or fuel v0 with hV | hV
                    · simp [parseStrBody_escape, skipWs, (by decide : isWs ':' = false), hV]
                    · simp [parseStrBody_escape, skipWs, (by decide : isWs ':' = false), hV]
                | cons g gs =>
                  have hflen : (dumpFields (k0, v0) (g :: gs)).length
                      = (dumpKey k0).length + 1 + (dump v0).length + 1
                        + (dumpFields g gs).length := by
                    simp [dumpFields]; omega
                  rcases Nat.lt_or_ge i ((dump v0).length + 1) with hlt | hge2
                  · have hX : (dumpFields (k0, v0) (g :: gs)).take (k + 1)
                        = dumpKey k0 ++ ':' :: (dump v0).take i := by
                      simp only [dumpFields, List.append_assoc, List.cons_append]
                      rw [hi, show (dumpKey k0).length + 1 + i
                          = (dumpKey k0).length + (1 + i) by omega, List.take_append]
                      rw [take_cons_pos ':' _ (1 + i) (by omega)]
                      simp only [Nat.add_sub_cancel_left]
                      rw [List.take_append_of_le_length (by omega)]
                    rw [hX, hkey]
                    simp only [List.cons_append, List.append_assoc, List.singleton_append,
                      parseFields]
                    rw [skipWs_not_ws _ (by decide)]
                    rcases Nat.lt_or_ge i (dump v0).length with hlt2 | hge3
                    · rcases ihV v0 hszV fuel i hlt2 with hV | ⟨i, m, hvi, hV⟩
                      · simp [parseStrBody_escape, skipWs, (by decide : isWs ':' = false),
                          hV]
                      · simp [parseStrBody_escape, skipWs, (by decide : isWs ':' = false),
                          hV]
                    · have hieq : i = (dump v0).length := by omega
                      rw [hieq, List.take_length]
                      rcases parseVal_dump_or fuel v0 with hV | hV
                      · simp [parseStrBody_escape, skipWs, (by decide : isWs ':' = false),
                          hV]
                      · simp [parseStrBody_escape, skipWs, (by decide : isWs ':' = false),
                          hV]
                  · -- past the comma after the value
                    set j := i - (dump v0).length - 1 with hjdef
                    have hX : (dumpFields (k0, v0) (g :: gs)).take (k + 1)
                        = dumpKey k0 ++ ':' :: (dump v0 ++ ',' :: (dumpFields g gs).take j)
                        := by
                      simp only [dumpFields, List.append_assoc, List.cons_append]
                      rw [hi, show (dumpKey k0).length + 1 + i
                          = (dumpKey k0).length + (1 + i) by omega, List.take_append]
                      rw [take_cons_pos ':' _ (1 + i) (by omega)]
                      simp only [Nat.add_sub_cancel_left]
                      rw [show i = (dump v0).length + (1 + j) by omega, List.take_append]
                      rw [take_cons_pos ',' _ (1 + j) (by omega)]
                      simp only [Nat.add_sub_cancel_left]
                    rw [hX, hkey]
                    simp only [List.cons_append, List.append_assoc, List.singleton_append,
                      parseFields]
                    rw [skipWs_not_ws _ (by decide)]
                    have hsz2 : jsize v0 + jsizeF g gs ≤ n + 1 := by
                      simpa [jsizeF] using hsz
                    have hF2 : parseFields fuel ((dumpFields g gs).take j) = none := by
                      refine ihF g gs (by have := jsize_pos v0; omega) fuel j (by omega)
                    rcases (parse_dump_or_none fuel).1 v0
                        (',' :: (dumpFields g gs).take j) (by simp [numStop, isDig])
                        with hV | hV
                    · simp [parseStrBody_escape, skipWs, (by decide : isWs ':' = false),
                        hV]
                    · simp [parseStrBody_escape, skipWs, (by decide : isWs ':' = false),
                        (by decide : isWs ',' = false), (by decide : (',' : Char) ≠ '}'),
                        hV, hF2]

/-! ### Size versus dump length, and direct corollaries -/

mutual

theorem jsize_le_dump : ∀ v : Json, jsize v ≤ (dump v).length
  | .null => by simp [jsize, dump]
  | .bool b => by cases b <;> simp [jsize, dump]
  | .num n => by
    have h : dumpInt n ≠ [] := by
      by_cases hneg : n < 0
      · simp [dumpInt, hneg]
      · by_cases hz : n = 0
        · simp [dumpInt, hneg, hz]
        · simpa [dumpInt, hneg, hz] using natChars_ne_nil n.toNat (by omega)
    have h2 : 1 ≤ (dumpInt n).length := List.length_pos.mpr h
    simp only [jsize, dump]
    omega
  | .str s => by simp [jsize, dump, dumpKey]
  | .arr [] => by simp [jsize, dump]
  | .arr (x :: xs) => by
    have h := jsizeL_le_dump x xs
    simp only [jsize, dump]
    simp only [List.length_cons, List.length_append, List.length_singleton]
    omega
  | .obj [] => by simp [jsize, dump]
  | .obj (f :: fs) => by
    have h := jsizeF_le_dump f fs
    simp only [jsize, dump]
    simp only [List.length_cons, List.length_append, List.length_singleton]
    omega
termination_by v => sizeOf v
decreasing_by all_goals (simp_wf; try omega)

theorem jsizeL_le_dump : ∀ (x : Json) (xs : List Json),
    jsizeL x xs ≤ (dumpElems x xs).length + 1
  | x, [] => by
    have := jsize_le_dump x
    simp only [jsizeL, dumpElems]
    omega
  | x, y :: ys => by
    have h1 := jsize_le_dump x
    have h2 := jsizeL_le_dump y ys
    simp only [jsizeL, dumpElems, List.length_append, List.length_cons]
    omega
termination_by x xs => 1 + sizeOf x + sizeOf xs
decreasing_by all_goals (simp_wf; try omega)

theorem jsizeF_le_dump : ∀ (f : List Char × Json) (fs : List (List Char × Json)),
    jsizeF f fs ≤ (dumpFields f fs).length + 1
  | (k, v), [] => by
    have := jsize_le_dump v
    simp only [jsizeF, dumpFields, dumpKey, List.length_append, List.length_cons]
    omega
  | (k, v), g :: gs => by
    have h1 := jsize_le_dump v
    have h2 := jsizeF_le_dump g gs
    simp only [jsizeF, dumpFields, dumpKey, List.length_append, List.length_cons]
    omega
termination_by f fs => 1 + sizeOf f + sizeOf fs
decreasing_by all_goals (simp_wf; try omega)

end

/-- Round trip specialized from the bundle. -/
theorem parseVal_dump (fuel : Nat) (v : Json) (rest : List Char) (hsz : jsize v ≤ fuel)
    (hstop : numStop rest = true) : parseVal fuel (dump v ++ rest) = some (v, rest) :=
  (parse_dump_bundle fuel).1 v rest hsz hstop

/-- A strict prefix of a serialized object never parses. -/
theorem parseVal_take_obj (fields : List (List Char × Json)) (fuel k : Nat)
    (hk : k < (dump (Json.obj fields)).length) :
    parseVal fuel ((dump (Json.obj fields)).take k) = none := by
  rcases (parse_take_bundle (jsize (Json.obj fields))).1 _ (le_refl _) fuel k hk with
    h | ⟨i, m, hvi, h⟩
  · exact h
  · exact absurd hvi (by simp)

theorem parseVal_ws_cons {c : Char} (h : isWs c = true) (fuel : Nat) (xs : List Char) :
    parseVal fuel (c :: xs) = parseVal fuel xs := by
  cases fuel with
  | zero => simp [parseVal]
  | succ f => simp only [parseVal, skipWs_ws _ h]

theorem parseMultiF_ws_cons {c : Char} (h : isWs c = true) (fuel : Nat) (xs : List Char) :
    parseMultiF fuel (c :: xs) = parseMultiF fuel xs := by
  cases fuel with
  | zero => simp [parseMultiF]
  | succ f => simp only [parseMultiF, skipWs_ws _ h, parseVal_ws_cons h]

/-! ### Messages, envelopes and the serialized stream -/

/-- The key of the `type` field. -/
def typeKey : List Char := ['t', 'y', 'p', 'e']

/-- The key of the `entity` field. -/
def entityKey : List Char := ['e', 'n', 't', 'i', 't', 'y']

/-- Modelled from the spec: the wire envelope
`{"type": <string>, "entity": <any>}` built by `flushSendQueue`. -/
def envelope (t : List Char) (e : Json) : Json :=
  .obj [(typeKey, .str t), (entityKey, e)]

/-- One serialized message as written by `flushSendQueue`:
`message.dump() + " "`. -/
def encodeMessage (t : List Char) (e : Json) : List Char :=
  dump (envelope t e) ++ [' ']

/-- The byte stream produced by flushing a whole message sequence. -/
def serializeAll (ms : List (List Char × Json)) : List Char :=
  (ms.map fun m => encodeMessage m.1 m.2).flatten

/-- The envelopes of a message sequence, in order. -/
def envelopes (ms : List (List Char × Json)) : List Json :=
  ms.map fun m => envelope m.1 m.2

theorem serializeAll_nil : serializeAll [] = [] := rfl

theorem serializeAll_cons (m : List Char × Json) (ms : List (List Char × Json)) :
    serializeAll (m :: ms) = dump (envelope m.1 m.2) ++ ' ' :: serializeAll ms := by
  simp [serializeAll, encodeMessage]

theorem envelope_dump_head (t : List Char) (e : Json) :
    ∃ td, dump (envelope t e) = '{' :: td := by
  exact ⟨dumpFields (typeKey, .str t) [(entityKey, e)] ++ ['}'], by simp [envelope, dump]⟩

theorem envelope_dump_ne_nil (t : List Char) (e : Json) : dump (envelope t e) ≠ [] := by
  obtain ⟨td, h⟩ := envelope_dump_head t e
  simp [h]

theorem parseMultiF_nil (f : Nat) (h : 1 ≤ f) : parseMultiF f [] = some [] := by
  cases f with
  | zero => omega
  | succ f2 => simp [parseMultiF, skipWs]

theorem parseMultiF_step (f : Nat) (s : List Char) (v : Json) (rest : List Char)
    (hne : ¬skipWs s = []) (hV : parseVal (f + 1) s = some (v, rest)) :
    parseMultiF (f + 1) s
      = match parseMultiF f rest with
        | none => none
        | some vs => some (v :: vs) := by
  simp only [parseMultiF, if_neg hne, hV]

theorem parseMultiF_step_none (f : Nat) (s : List Char)
    (hne : ¬skipWs s = []) (hV : parseVal (f + 1) s = none) :
    parseMultiF (f + 1) s = none := by
  simp only [parseMultiF, if_neg hne, hV]

theorem skipWs_env_ne (t : List Char) (e : Json) (X : List Char) :
    ¬skipWs (dump (envelope t e) ++ X) = [] := by
  obtain ⟨td, hh⟩ := envelope_dump_head t e
  rw [hh, List.cons_append, skipWs_not_ws _ (by decide)]
  simp

/-- Parsing an arbitrary truncation of a serialized message stream: the
truncation point either sits right after a whole message (with or
without its trailing separator) and parsing succeeds with exactly the
messages before it, or it sits strictly inside a message and the whole
parse fails. -/
theorem parseMultiF_cut (ms : List (List Char × Json)) :
    ∀ t fuel, t + 1 ≤ fuel →
    (∃ ms1 ms2, ms = ms1 ++ ms2 ∧ (serializeAll ms).take t = serializeAll ms1 ∧
       parseMultiF fuel ((serializeAll ms).take t) = some (envelopes ms1)) ∨
    (∃ ms1 m ms2, ms = ms1 ++ m :: ms2 ∧
       (serializeAll ms).take t = serializeAll ms1 ++ dump (envelope m.1 m.2) ∧
       parseMultiF fuel ((serializeAll ms).take t)
         = some (envelopes ms1 ++ [envelope m.1 m.2])) ∨
    (parseMultiF fuel ((serializeAll ms).take t) = none ∧
       t < (serializeAll ms).length) := by
  induction ms with
  | nil =>
    intro t fuel hfuel
    left
    exact ⟨[], [], rfl, by simp [serializeAll],
      by simpa [serializeAll] using parseMultiF_nil fuel (by omega)⟩
  | cons m ms2 ih =>
    intro t fuel hfuel
    obtain ⟨f, rfl⟩ : ∃ f, fuel = f + 1 := ⟨fuel - 1, by omega⟩
    have hser := serializeAll_cons m ms2
    obtain ⟨td, hhead⟩ := envelope_dump_head m.1 m.2
    have hElen : 1 ≤ (dump (envelope m.1 m.2)).length := by rw [hhead]; simp
    have hslen : (serializeAll (m :: ms2)).length
        = (dump (envelope m.1 m.2)).length + 1 + (serializeAll ms2).length := by
      rw [hser]; simp; omega
    by_cases h0 : t = 0
    · subst h0
      left
      exact ⟨[], m :: ms2, rfl, by simp [serializeAll_nil],
        by simpa [serializeAll_nil] using parseMultiF_nil (f + 1) (by omega)⟩
    · by_cases h1 : t < (dump (envelope m.1 m.2)).length
      · right; right
        have htake : (serializeAll (m :: ms2)).take t
            = (dump (envelope m.1 m.2)).take t := by
          rw [hser, List.take_append_of_le_length (by omega)]
        have hnone : parseVal (f + 1) ((dump (envelope m.1 m.2)).take t) = none :=
          parseVal_take_obj [(typeKey, .str m.1), (entityKey, m.2)] (f + 1) t h1
        have htake2 : (dump (envelope m.1 m.2)).take t = '{' :: td.take (t - 1) := by
          rw [hhead, take_cons_pos _ _ _ (by omega)]
        constructor
        · rw [htake]
          refine parseMultiF_step_none f _ ?_ hnone
          rw [htake2, skipWs_not_ws _ (by decide)]
          simp
        · omega
      · by_cases h2 : t = (dump (envelope m.1 m.2)).length
        · right; left
          have htake : (serializeAll (m :: ms2)).take t = dump (envelope m.1 m.2) := by
            rw [hser, h2, List.take_append_of_le_length (le_refl _), List.take_length]
          refine ⟨[], m, ms2, rfl, by rw [htake]; simp [serializeAll_nil], ?_⟩
          rw [htake]
          have hV : parseVal (f + 1) (dump (envelope m.1 m.2))
              = some (envelope m.1 m.2, []) := by
            have h := parseVal_dump (f + 1) (envelope m.1 m.2) []
              (le_trans (jsize_le_dump _) (by omega)) (by simp [numStop])
            simpa using h
          rw [parseMultiF_step f _ _ _ (by simpa using skipWs_env_ne m.1 m.2 []) hV]
          rw [parseMultiF_nil f (by omega)]
          simp [envelopes, serializeAll_nil]
        · by_cases h3 : t = (dump (envelope m.1 m.2)).length + 1
          · left
            have htake : (serializeAll (m :: ms2)).take t
                = dump (envelope m.1 m.2) ++ [' '] := by
              rw [hser, h3, List.take_append]
              simp [List.take_succ_cons]
            refine ⟨[m], ms2, rfl, ?_, ?_⟩
            · rw [htake, serializeAll_cons]
              simp [serializeAll_nil]
            · rw [htake]
              have hV : parseVal (f + 1) (dump (envelope m.1 m.2) ++ [' '])
                  = some (envelope m.1 m.2, [' ']) :=
                parseVal_dump (f + 1) (envelope m.1 m.2) [' ']
                  (le_trans (jsize_le_dump _) (by omega)) (by simp [numStop, isDig])
              rw [parseMultiF_step f _ _ _ (skipWs_env_ne m.1 m.2 [' ']) hV]
              rw [parseMultiF_ws_cons (by decide), parseMultiF_nil f (by omega)]
              simp [envelopes]
          · -- strictly past the separator: recurse into the tail stream
            have ht4 : (dump (envelope m.1 m.2)).length + 2 ≤ t := by omega
            set dl := (dump (envelope m.1 m.2)).length with hdl
            have htake : (serializeAll (m :: ms2)).take t
                = dump (envelope m.1 m.2) ++ ' ' :: (serializeAll ms2).take (t - dl - 1)
                := by
              rw [hser, show t = dl + (t - dl) by omega, List.take_append,
                take_cons_pos ' ' _ (t - dl) (by omega)]
              have harith : dl + (t - dl) - dl - 1 = t - dl - 1 := by omega
              rw [harith]
            have hV : parseVal (f + 1)
                (dump (envelope m.1 m.2) ++ ' ' :: (serializeAll ms2).take (t - dl - 1))
                = some (envelope m.1 m.2, ' ' :: (serializeAll ms2).take (t - dl - 1)) :=
              parseVal_dump (f + 1) (envelope m.1 m.2) _
                (le_trans (jsize_le_dump _) (by omega)) (by simp [numStop, isDig])
            have hstep := parseMultiF_step f _ _ _ (skipWs_env_ne m.1 m.2 _) hV
            have hws := parseMultiF_ws_cons (c := ' ') (by decide) f
              ((serializeAll ms2).take (t - dl - 1))
            rcases ih (t - dl - 1) f (by omega) with
              ⟨a, b, hsplit, htk, hres⟩ | ⟨a, mm, b, hsplit, htk, hres⟩ | ⟨hres, hlt⟩
            · left
              refine ⟨m :: a, b, by simp [hsplit], ?_, ?_⟩
              · rw [htake, htk, serializeAll_cons]
              · rw [htake, hstep, hws, hres]
                simp [envelopes]
            · right; left
              refine ⟨m :: a, mm, b, by simp [hsplit], ?_, ?_⟩
              · rw [htake, htk, serializeAll_cons]
                simp
              · rw [htake, hstep, hws, hres]
                simp [envelopes]
            · right; right
              constructor
              · rw [htake, hstep, hws, hres]
              · omega

/-! ### The message processor (translated from `MessageProcessor.hpp`) -/

/-- Model of `json11::Json::operator[]` on the fields of an object: the value at
the first matching key. -/
def lookupField : List (List Char × Json) → List Char → Option Json
  | [], _ => none
  | (k2, v) :: fs, k => if k2 = k then some v else lookupField fs k

/-- Model of `message[key]`: field access on a JSON value; only objects have
fields (json11 yields null for everything else, modelled as `none`
here and defaulted by the caller). -/
def getField (v : Json) (k : List Char) : Option Json :=
  match v with
  | .obj fs => lookupField fs k
  | _ => none

/-- The per-value check in `parseBuffer`: a parsed value becomes a
message when it is an object whose `type` field is a string; its payload
is the `entity` field, JSON null when absent.  Anything else is
discarded. -/
def msgOfJson (v : Json) : Option (List Char × Json) :=
  match getField v typeKey with
  | some (.str t) => some (t, (getField v entityKey).getD .null)
  | _ => none

/-- State of `net::MessageProcessor`: receive buffer (`m_buffer`),
inbound queue (`m_ingress`), outbound queue (`m_egress`) and handler
registry (`m_handlers`, handlers named by numeric identifiers whose
behaviour an environment supplies at dispatch time). -/
structure MessageProcessor where
  buffer : List Char
  ingress : List (List Char × Json)
  egress : List (List Char × Json)
  handlers : List (List Char × List Nat)

/-- A processor as freshly constructed: empty buffer and queues. -/
def MessageProcessor.init : MessageProcessor := ⟨[], [], [], []⟩

/-- Model of `MessageProcessor::parseBuffer`: parse the whole buffer as a
sequence of JSON values.  On failure (including a buffer that ends
mid-value) nothing changes; on success the buffer is cleared and every
type-valid object is appended to the inbound queue. -/
def parseBuffer (st : MessageProcessor) : MessageProcessor :=
  if st.buffer = [] then st
  else
    match parse_multi st.buffer with
    | none => st
    | some vs =>
      { st with buffer := [], ingress := st.ingress ++ vs.filterMap msgOfJson }

/-- Result of the `recv` call in `MessageProcessor::proccess`. -/
inductive RecvResult where
  | closed
  | err (errno : Nat)
  | data (bytes : List Char)

/-- Capacity reserved by `m_buffer.reserve(8192)` in the constructor. -/
def bufferCapacity : Nat := 8192

/-- Model of `MessageProcessor::proccess` (sic): receive at most the free buffer
space and parse.  A full buffer, a closed peer and a `recv` error all
silently return ("What do?" / "TODO: Propagation of errors" in the
source): the caller gets no indication of any of these conditions. -/
def proccess (r : RecvResult) (st : MessageProcessor) : MessageProcessor :=
  let free := bufferCapacity - st.buffer.length
  if free = 0 then st
  else
    match r with
    | .closed => st
    | .err _ => st
    | .data bs => parseBuffer { st with buffer := st.buffer ++ bs.take free }

/-- Model of `MessageProcessor::send`: enqueue one message on the outbound
queue. -/
def send (st : MessageProcessor) (t : List Char) (e : Json) : MessageProcessor :=
  { st with egress := st.egress ++ [(t, e)] }

/-- The inner retry loop of `flushSendQueue`: repeatedly call `::send`
on the unsent remainder until everything is out.  `oracle` lists the
results of the successive `::send` calls (`-1` = error, silently
retried by the source); the log records the bytes the transport
accepted.  An exhausted oracle models non-termination. -/
def sendLoop (data : List Char) : List Int → Nat → List Char → Option (List Int × List Char)
  | [], sent, log => if data.length ≤ sent then some ([], log) else none
  | r :: rest, sent, log =>
    if data.length ≤ sent then some (r :: rest, log)
    else if r = -1 then sendLoop data rest sent log
    else sendLoop data rest (sent + r.toNat) (log ++ (data.drop sent).take r.toNat)

/-- Model of `MessageProcessor::flushSendQueue`: pop messages off the outbound
queue front first, encode each as `message.dump() + " "` and push it
through the retry loop. -/
def flushSendQueue (oracle : List Int) (st : MessageProcessor) (log : List Char) :
    Option (List Int × MessageProcessor × List Char) :=
  match hm : st.egress with
  | [] => some (oracle, st, log)
  | (t, e) :: rest =>
    match sendLoop (encodeMessage t e) oracle 0 log with
    | none => none
    | some (o2, log2) => flushSendQueue o2 { st with egress := rest } log2
termination_by st.egress.length
decreasing_by simp_wf; simp [hm]

/-- Model of `std::map::find` on the handler registry. -/
def regFind : List (List Char × List Nat) → List Char → Option (List Nat)
  | [], _ => none
  | (k, hs) :: m, t => if k = t then some hs else regFind m t

/-- Model of `m_handlers[type]` (`std::map::operator[]`): the handler list for
the type, inserting an empty list first when the key is absent.  The
model keeps insertion order; the map's iteration order is not
observable through the processor's operations. -/
def regIndex (m : List (List Char × List Nat)) (t : List Char) :
    List (List Char × List Nat) × List Nat :=
  match regFind m t with
  | some hs => (m, hs)
  | none => (m ++ [(t, [])], [])

/-- Model of `m_handlers[type].push_back(handler)` in `addHandler`. -/
def regInsert : List (List Char × List Nat) → List Char → Nat → List (List Char × List Nat)
  | [], t, h => [(t, [h])]
  | (k, hs) :: m, t, h =>
    if k = t then (k, hs ++ [h]) :: m else (k, hs) :: regInsert m t h

/-- Model of `MessageProcessor::addHandler`: append a handler to the type's
list, never replacing existing handlers. -/
def addHandler (st : MessageProcessor) (t : List Char) (h : Nat) : MessageProcessor :=
  { st with handlers := regInsert st.handlers t h }

/-- The handlers `dispatch` runs for a type: the registered list, empty
when the type is unknown. -/
def handlersFor (m : List (List Char × List Nat)) (t : List Char) : List Nat :=
  (regFind m t).getD []

/-- Run the handlers of one message in registration order.  Each handler
receives the processor (through which its sends append to the outbound
queue, supplied by the environment `env`), the message's entity and the
dispatch context; the trace records each invocation. -/
def runHandlers {Ctx : Type} (env : Nat → Json → Ctx → List (List Char × Json)) (ctx : Ctx)
    (e : Json) : List Nat → List (List Char × Json) →
      List (List Char × Json) × List (Nat × Json)
  | [], egress => (egress, [])
  | h :: hs, egress =>
    let p := runHandlers env ctx e hs (egress ++ env h e ctx)
    (p.1, (h, e) :: p.2)

/-- The `while (!m_ingress.empty())` loop of `dispatch`: for the front
message, `m_handlers[type]` is looked up (inserting an empty entry for
unknown types), every handler is invoked in order, then the message is
popped. -/
def dispatchGo {Ctx : Type} (env : Nat → Json → Ctx → List (List Char × Json)) (ctx : Ctx) :
    List (List Char × Json) → List (List Char × List Nat) → List (List Char × Json) →
      List (List Char × List Nat) × List (List Char × Json) × List (Nat × Json)
  | [], reg, egress => (reg, egress, [])
  | (t, e) :: rest, reg, egress =>
    let p := regIndex reg t
    let r := runHandlers env ctx e p.2 egress
    let q := dispatchGo env ctx rest p.1 r.1
    (q.1, q.2.1, r.2 ++ q.2.2)

/-- Model of `MessageProcessor::dispatch`: drain the inbound queue, returning the
final state and the trace of handler invocations. -/
def dispatch {Ctx : Type} (env : Nat → Json → Ctx → List (List Char × Json)) (ctx : Ctx)
    (st : MessageProcessor) : MessageProcessor × List (Nat × Json) :=
  let q := dispatchGo env ctx st.ingress st.handlers st.egress
  ({ st with ingress := [], handlers := q.1, egress := q.2.1 }, q.2.2)

/-- One receive cycle of the framer on already-received bytes: append
the chunk to the buffer and run `parseBuffer` (the framing path of
`proccess`). -/
def ingestChunk (st : MessageProcessor) (c : List Char) : MessageProcessor :=
  parseBuffer { st with buffer := st.buffer ++ c }

/-- Deliver a chunked byte stream, attempting extraction after each
chunk. -/
def feedChunks (st : MessageProcessor) (cs : List (List Char)) : MessageProcessor :=
  cs.foldl ingestChunk st

/-! ### The chunked-delivery invariant -/

theorem msgOfJson_envelope (t : List Char) (e : Json) :
    msgOfJson (envelope t e) = some (t, e) := by
  simp [msgOfJson, envelope, getField, lookupField, typeKey, entityKey]

theorem filterMap_envelopes (ms : List (List Char × Json)) :
    (envelopes ms).filterMap msgOfJson = ms := by
  induction ms with
  | nil => simp [envelopes]
  | cons m ms ih =>
    have h2 : envelopes (m :: ms) = envelope m.1 m.2 :: envelopes ms := by simp [envelopes]
    rw [h2]
    simp [List.filterMap_cons, msgOfJson_envelope, ih]

theorem serializeAll_append (a b : List (List Char × Json)) :
    serializeAll (a ++ b) = serializeAll a ++ serializeAll b := by
  simp [serializeAll]

theorem serializeAll_eq_nil {ms : List (List Char × Json)}
    (h : serializeAll ms = []) : ms = [] := by
  cases ms with
  | nil => rfl
  | cons m ms =>
    rw [serializeAll_cons] at h
    rcases List.append_eq_nil.mp h with ⟨h1, _⟩
    exact absurd h1 (envelope_dump_ne_nil m.1 m.2)

/-- The invariant maintained while a serialized stream is delivered in
chunks: some front part of the message list has been extracted into the
inbound queue; the buffer holds a (possibly empty) left part of what
remains (preceded, directly after an extraction that stopped at a
message's closing brace, by that message's still-unconsumed separator),
and a stuck buffer is always strictly shorter than the rest of the
stream. -/
def StreamInv (ms : List (List Char × Json)) (st : MessageProcessor)
    (future : List Char) : Prop :=
  ∃ ms1 ms2 pre, ms = ms1 ++ ms2 ∧ st.ingress = ms1 ∧ (pre = [] ∨ pre = [' ']) ∧
    st.buffer ++ future = pre ++ serializeAll ms2 ∧
    (st.buffer = [] ∨ st.buffer.length < (pre ++ serializeAll ms2).length)

/-- Lemma: `parseBuffer` when the whole-buffer parse fails (or the buffer is
empty, which parses to an empty value list in this model but is skipped
by the early return): the state is unchanged. -/
theorem parseBuffer_stuck (st : MessageProcessor) (h : parse_multi st.buffer = none) :
    parseBuffer st = st := by
  by_cases hb : st.buffer = []
  · simp [parseBuffer, hb]
  · simp [parseBuffer, hb, h]

/-- Lemma: `parseBuffer` on a successful whole-buffer parse: clear the buffer
and enqueue the type-valid values. -/
theorem parseBuffer_some (st : MessageProcessor) (vs : List Json)
    (hb : ¬st.buffer = []) (h : parse_multi st.buffer = some vs) :
    parseBuffer st
      = { st with buffer := [], ingress := st.ingress ++ vs.filterMap msgOfJson } := by
  simp [parseBuffer, hb, h]

theorem parseBuffer_cut (st : MessageProcessor) (ms2 : List (List Char × Json))
    (pre future : List Char) (hpre : pre = [] ∨ pre = [' '])
    (hbf : st.buffer ++ future = pre ++ serializeAll ms2) :
    ∃ a b pre2, ms2 = a ++ b ∧ (parseBuffer st).ingress = st.ingress ++ a ∧
      (pre2 = [] ∨ pre2 = [' ']) ∧
      (parseBuffer st).buffer ++ future = pre2 ++ serializeAll b ∧
      ((parseBuffer st).buffer = [] ∨
        (parseBuffer st).buffer.length < (pre2 ++ serializeAll b).length) := by
  by_cases hBnil : st.buffer = []
  · refine ⟨[], ms2, pre, by simp, by simp [parseBuffer, hBnil], hpre, ?_, ?_⟩
    · simpa [parseBuffer, hBnil] using hbf
    · simp [parseBuffer, hBnil]
  · have hBtake : st.buffer = (pre ++ serializeAll ms2).take st.buffer.length := by
      rw [← hbf, List.take_left]
    rcases hpre with rfl | rfl
    · -- no pending separator
      simp only [List.nil_append] at hBtake hbf
      rcases parseMultiF_cut ms2 st.buffer.length (st.buffer.length + 1) (by omega) with
        ⟨a, b, hsp, htk, hres⟩ | ⟨a, mm, b, hsp, htk, hres⟩ | ⟨hres, hlt⟩
      · rw [← hBtake] at htk hres
        have hpm : parse_multi st.buffer = some (envelopes a) := hres
        have hfut : future = serializeAll b := by
          have h1 : st.buffer ++ future = serializeAll a ++ serializeAll b := by
            rw [hbf, hsp, serializeAll_append]
          rw [htk] at h1
          exact List.append_cancel_left h1
        refine ⟨a, b, [], hsp, ?_, Or.inl rfl, ?_, Or.inl ?_⟩ <;>
          simp [parseBuffer, hBnil, hpm, filterMap_envelopes, hfut]
      · rw [← hBtake] at htk hres
        have hpm : parse_multi st.buffer
            = some (envelopes a ++ [envelope mm.1 mm.2]) := hres
        have hfut : future = ' ' :: serializeAll b := by
          have h1 : st.buffer ++ future
              = (serializeAll a ++ dump (envelope mm.1 mm.2)) ++ ' ' :: serializeAll b
              := by
            rw [hbf, hsp, serializeAll_append, serializeAll_cons]
            simp
          rw [htk] at h1
          rw [List.append_assoc, List.append_assoc] at h1
          exact List.append_cancel_left (List.append_cancel_left h1)
        have hext : (envelopes a ++ [envelope mm.1 mm.2]).filterMap msgOfJson
            = a ++ [mm] := by
          have h2 : envelopes a ++ [envelope mm.1 mm.2] = envelopes (a ++ [mm]) := by
            simp [envelopes]
          rw [h2, filterMap_envelopes]
        refine ⟨a ++ [mm], b, [' '], by simpa using hsp, ?_, Or.inr rfl, ?_, Or.inl ?_⟩
          <;> simp [parseBuffer, hBnil, hpm, hext, hfut, List.append_assoc]
      · rw [← hBtake] at hres
        have hpm : parse_multi st.buffer = none := hres
        refine ⟨[], ms2, [], by simp, ?_, Or.inl rfl, ?_, Or.inr ?_⟩
        · simp [parseBuffer, hBnil, hpm]
        · simpa [parseBuffer, hBnil, hpm] using hbf
        · simpa [parseBuffer, hBnil, hpm] using hlt
    · -- a separator is still pending at the front
      have hBpos : 1 ≤ st.buffer.length := by
        cases hB : st.buffer with
        | nil => exact absurd hB hBnil
        | cons x xs => simp [hB]
      have hBcons : st.buffer
          = ' ' :: (serializeAll ms2).take (st.buffer.length - 1) := by
        conv_lhs => rw [hBtake]
        rw [List.singleton_append, take_cons_pos _ _ _ hBpos]
      have hlenX : ((serializeAll ms2).take (st.buffer.length - 1)).length + 1
          = st.buffer.length := by
        conv_rhs => rw [hBcons]
        simp
      have hB2 : (serializeAll ms2).take (st.buffer.length - 1) ++ future
          = serializeAll ms2 := by
        have h1 := hbf
        rw [hBcons] at h1
        simpa using h1
      have hpm0 : parse_multi st.buffer
          = parseMultiF (st.buffer.length + 1)
              ((serializeAll ms2).take (st.buffer.length - 1)) := by
        unfold parse_multi
        conv_lhs => rw [hBcons]
        rw [parseMultiF_ws_cons (by decide)]
        rw [show (' ' :: (serializeAll ms2).take (st.buffer.length - 1)).length
            = st.buffer.length by rw [← hBcons]]
      rcases parseMultiF_cut ms2 (st.buffer.length - 1) (st.buffer.length + 1)
          (by omega) with
        ⟨a, b, hsp, htk, hres⟩ | ⟨a, mm, b, hsp, htk, hres⟩ | ⟨hres, hlt⟩
      · have hpm : parse_multi st.buffer = some (envelopes a) := by rw [hpm0]; exact hres
        have hfut : future = serializeAll b := by
          have h1 : (serializeAll ms2).take (st.buffer.length - 1) ++ future
              = serializeAll a ++ serializeAll b := by
            rw [hB2, hsp, serializeAll_append]
          rw [htk] at h1
          exact List.append_cancel_left h1
        refine ⟨a, b, [], hsp, ?_, Or.inl rfl, ?_, Or.inl ?_⟩ <;>
          simp [parseBuffer, hBnil, hpm, filterMap_envelopes, hfut]
      · have hpm : parse_multi st.buffer
            = some (envelopes a ++ [envelope mm.1 mm.2]) := by rw [hpm0]; exact hres
        have hfut : future = ' ' :: serializeAll b := by
          have h1 : (serializeAll ms2).take (st.buffer.length - 1) ++ future
              = (serializeAll a ++ dump (envelope mm.1 mm.2)) ++ ' ' :: serializeAll b
              := by
            rw [hB2, hsp, serializeAll_append, serializeAll_cons]
            simp
          rw [htk] at h1
          rw [List.append_assoc, List.append_assoc] at h1
          exact List.append_cancel_left (List.append_cancel_left h1)
        have hext : (envelopes a ++ [envelope mm.1 mm.2]).filterMap msgOfJson
            = a ++ [mm] := by
          have h2 : envelopes a ++ [envelope mm.1 mm.2] = envelopes (a ++ [mm]) := by
            simp [envelopes]
          rw [h2, filterMap_envelopes]
        refine ⟨a ++ [mm], b, [' '], by simpa using hsp, ?_, Or.inr rfl, ?_, Or.inl ?_⟩
          <;> simp [parseBuffer, hBnil, hpm, hext, hfut, List.append_assoc]
      · have hpm : parse_multi st.buffer = none := by rw [hpm0]; exact hres
        refine ⟨[], ms2, [' '], by simp, ?_, Or.inr rfl, ?_, Or.inr ?_⟩
        · simp [parseBuffer, hBnil, hpm]
        · simpa [parseBuffer, hBnil, hpm] using hbf
        · rw [parseBuffer_stuck st hpm]
          simp only [List.length_append, List.singleton_append, List.length_cons]
          omega

theorem StreamInv_step (ms : List (List Char × Json)) (st : MessageProcessor)
    (c future : List Char) (h : StreamInv ms st (c ++ future)) :
    StreamInv ms (ingestChunk st c) future := by
  obtain ⟨ms1, ms2, pre, hsplit, hing, hpre, hbf, _⟩ := h
  have hbf2 : ({ st with buffer := st.buffer ++ c } : MessageProcessor).buffer ++ future
      = pre ++ serializeAll ms2 := by
    simpa [List.append_assoc] using hbf
  obtain ⟨a, b, pre2, hsp, hingr, hpre2, hbf3, hstrict3⟩ :=
    parseBuffer_cut { st with buffer := st.buffer ++ c } ms2 pre future hpre hbf2
  exact ⟨ms1 ++ a, b, pre2, by rw [hsplit, hsp]; simp,
    hingr.trans (by rw [show ({ st with buffer := st.buffer ++ c } :
      MessageProcessor).ingress = st.ingress from rfl, hing]),
    hpre2, hbf3, hstrict3⟩

theorem StreamInv_feed (ms : List (List Char × Json)) :
    ∀ (cs : List (List Char)) (st : MessageProcessor),
      StreamInv ms st cs.flatten → StreamInv ms (feedChunks st cs) [] := by
  intro cs
  induction cs with
  | nil => intro st h; simpa [feedChunks] using h
  | cons c cs ih =>
    intro st h
    have h2 : StreamInv ms (ingestChunk st c) cs.flatten :=
      StreamInv_step ms st c cs.flatten (by simpa using h)
    simpa [feedChunks] using ih (ingestChunk st c) h2

/-- A single whole serialized message (without separator) parses as one
envelope. -/
theorem parse_multi_dump_envelope (t : List Char) (e : Json) :
    parse_multi (dump (envelope t e)) = some [envelope t e] := by
  unfold parse_multi
  have hV : parseVal ((dump (envelope t e)).length + 1) (dump (envelope t e))
      = some (envelope t e, []) := by
    have h := parseVal_dump ((dump (envelope t e)).length + 1) (envelope t e) []
      (le_trans (jsize_le_dump _) (by omega)) (by simp [numStop])
    simpa using h
  rw [parseMultiF_step _ _ _ _ (by simpa using skipWs_env_ne t e []) hV]
  rw [parseMultiF_nil _ (List.length_pos.mpr (envelope_dump_ne_nil t e))]

/-- A single fully serialized message (with separator) parses as one
envelope. -/
theorem parse_multi_encode (t : List Char) (e : Json) :
    parse_multi (encodeMessage t e) = some [envelope t e] := by
  unfold parse_multi encodeMessage
  have hV : parseVal ((dump (envelope t e) ++ [' ']).length + 1)
      (dump (envelope t e) ++ [' ']) = some (envelope t e, [' ']) :=
    parseVal_dump _ (envelope t e) [' ']
      (le_trans (jsize_le_dump _) (by simp only [List.length_append, List.length_singleton]; omega)) (by simp [numStop, isDig])
  rw [parseMultiF_step _ _ _ _ (skipWs_env_ne t e [' ']) hV]
  rw [parseMultiF_ws_cons (by decide), parseMultiF_nil _ (by simp)]

/-! ### The send/flush path -/

/-- A successful run of the retry loop transmits exactly the unsent
remainder, in order, once. -/
theorem sendLoop_log (data : List Char) :
    ∀ (oracle : List Int) (sent : Nat) (log : List Char) o2 log2,
      sendLoop data oracle sent log = some (o2, log2) →
      log2 = log ++ data.drop sent := by
  intro oracle
  induction oracle with
  | nil =>
    intro sent log o2 log2 h
    simp only [sendLoop] at h
    split at h
    · obtain ⟨rfl, rfl⟩ : [] = o2 ∧ log = log2 := by
        constructor <;> (cases h; rfl)
      rw [List.drop_eq_nil_of_le (by omega), List.append_nil]
    · cases h
  | cons r rest ih =>
    intro sent log o2 log2 h
    simp only [sendLoop] at h
    split at h
    · obtain ⟨rfl, rfl⟩ : r :: rest = o2 ∧ log = log2 := by
        constructor <;> (cases h; rfl)
      rw [List.drop_eq_nil_of_le (by omega), List.append_nil]
    · split at h
      · exact ih sent log o2 log2 h
      · have h2 := ih (sent + r.toNat) (log ++ (data.drop sent).take r.toNat) o2 log2 h
        have h4 : (data.drop sent).drop r.toNat = data.drop (sent + r.toNat) := by
          rw [List.drop_drop, Nat.add_comm]
        rw [h2, List.append_assoc, ← h4, List.take_append_drop]

/-- With only positive transport results the retry loop terminates,
consuming at most one oracle entry per byte. -/
theorem sendLoop_term (data : List Char) :
    ∀ (oracle : List Int) (sent : Nat) (log : List Char),
      (∀ r ∈ oracle, 0 < r) → data.length - sent ≤ oracle.length →
      ∃ o2 log2, sendLoop data oracle sent log = some (o2, log2) ∧
        (∀ r ∈ o2, 0 < r) ∧ oracle.length - (data.length - sent) ≤ o2.length := by
  intro oracle
  induction oracle with
  | nil =>
    intro sent log _ hlen
    simp only [List.length_nil, Nat.le_zero] at hlen
    refine ⟨[], log, ?_, by simp, by simp⟩
    simp only [sendLoop]
    rw [if_pos (by omega)]
  | cons r rest ih =>
    intro sent log hpos hlen
    by_cases hdone : data.length ≤ sent
    · refine ⟨r :: rest, log, ?_, hpos, by simp⟩
      simp only [sendLoop]
      rw [if_pos hdone]
    · have hr : 0 < r := hpos r (by simp)
      have hrt : 1 ≤ r.toNat := by omega
      have hneq : ¬r = -1 := by omega
      obtain ⟨o2, log2, heq, hpos2, hlen2⟩ :=
        ih (sent + r.toNat) (log ++ (data.drop sent).take r.toNat)
          (fun x hx => hpos x (by simp [hx])) (by simp at hlen; omega)
      refine ⟨o2, log2, ?_, hpos2, ?_⟩
      · simp only [sendLoop]
        rw [if_neg hdone, if_neg hneq]
        exact heq
      · simp only [List.length_cons]
        omega

/-- Total wire size of the queued messages. -/
def totalBytes (eg : List (List Char × Json)) : Nat :=
  (eg.map fun m => (encodeMessage m.1 m.2).length).sum

/-- A successful flush logs exactly the serialized queue in order and
leaves the outbound queue empty (touching nothing else). -/
theorem flushSendQueue_props :
    ∀ (n : Nat) (st : MessageProcessor), st.egress.length ≤ n →
      ∀ (oracle : List Int) (log : List Char) o2 st2 log2,
        flushSendQueue oracle st log = some (o2, st2, log2) →
        log2 = log ++ serializeAll st.egress ∧ st2.egress = [] ∧
          st2.buffer = st.buffer ∧ st2.ingress = st.ingress ∧
          st2.handlers = st.handlers := by
  intro n
  induction n with
  | zero =>
    intro st hlen oracle log o2 st2 log2 h
    rw [flushSendQueue] at h
    split at h
    · rename_i heq
      obtain ⟨rfl, rfl, rfl⟩ : oracle = o2 ∧ st = st2 ∧ log = log2 := by
        refine ⟨?_, ?_, ?_⟩ <;> (cases h; rfl)
      rw [heq]
      simp [serializeAll]
    · rename_i t e rest heq
      rw [heq] at hlen
      simp at hlen
  | succ n ih =>
    intro st hlen oracle log o2 st2 log2 h
    rw [flushSendQueue] at h
    split at h
    · rename_i heq
      obtain ⟨rfl, rfl, rfl⟩ : oracle = o2 ∧ st = st2 ∧ log = log2 := by
        refine ⟨?_, ?_, ?_⟩ <;> (cases h; rfl)
      rw [heq]
      simp [serializeAll]
    · rename_i t e rest heq
      split at h
      · cases h
      · rename_i o3 log3 hsend
        have hrec := ih { st with egress := rest }
          (by show rest.length ≤ n; rw [heq] at hlen; simp at hlen; omega)
          o3 log3 o2 st2 log2 h
        have hlog3 := sendLoop_log (encodeMessage t e) oracle 0 log o3 log3 hsend
        simp only [List.drop_zero] at hlog3
        obtain ⟨h1, h2, h3, h4, h5⟩ := hrec
        refine ⟨?_, h2, h3, h4, h5⟩
        rw [h1, hlog3, heq, serializeAll_cons]
        simp [encodeMessage]

/-- With positive transport results and enough oracle entries, the flush
terminates. -/
theorem flushSendQueue_term :
    ∀ (n : Nat) (st : MessageProcessor), st.egress.length ≤ n →
      ∀ (oracle : List Int) (log : List Char),
        (∀ r ∈ oracle, 0 < r) → totalBytes st.egress ≤ oracle.length →
        ∃ o2 st2 log2, flushSendQueue oracle st log = some (o2, st2, log2) := by
  intro n
  induction n with
  | zero =>
    intro st hlen oracle log _ _
    have heg : st.egress = [] := by
      cases heq : st.egress with
      | nil => rfl
      | cons a b => rw [heq] at hlen; simp at hlen
    rw [flushSendQueue]
    split
    · exact ⟨_, _, _, rfl⟩
    · rename_i t e rest heq
      rw [heg] at heq
      cases heq
  | succ n ih =>
    intro st hlen oracle log hpos htot
    rw [flushSendQueue]
    split
    · exact ⟨_, _, _, rfl⟩
    · rename_i t e rest heq
      have htot2 : (encodeMessage t e).length + totalBytes rest ≤ oracle.length := by
        rw [heq] at htot
        simpa [totalBytes] using htot
      obtain ⟨o3, log3, hsend, hpos3, hlen3⟩ :=
        sendLoop_term (encodeMessage t e) oracle 0 log hpos (by omega)
      rw [hsend]
      exact ih { st with egress := rest }
        (by show rest.length ≤ n; rw [heq] at hlen; simp at hlen; omega) o3 log3 hpos3
        (by show totalBytes rest ≤ o3.length; omega)

/-- One unfolding of `flushSendQueue` on an empty queue. -/
theorem flushSendQueue_nil (oracle : List Int) (st : MessageProcessor) (log : List Char)
    (h : st.egress = []) : flushSendQueue oracle st log = some (oracle, st, log) := by
  rw [flushSendQueue]
  split
  · rfl
  · rename_i t2 e2 rest2 heq
    rw [h] at heq
    cases heq

/-- One unfolding of `flushSendQueue` on a non-empty queue whose head the
retry loop sends successfully. -/
theorem flushSendQueue_cons (oracle : List Int) (st : MessageProcessor) (log : List Char)
    (t : List Char) (e : Json) (rest : List (List Char × Json))
    (h : st.egress = (t, e) :: rest) (o2 : List Int) (log2 : List Char)
    (hsl : sendLoop (encodeMessage t e) oracle 0 log = some (o2, log2)) :
    flushSendQueue oracle st log
      = flushSendQueue o2 { st with egress := rest } log2 := by
  rw [flushSendQueue]
  split
  · rename_i heq
    rw [h] at heq
    cases heq
  · rename_i t2 e2 rest2 heq
    rw [h] at heq
    simp only [List.cons.injEq, Prod.mk.injEq] at heq
    obtain ⟨⟨h1, h2⟩, h3⟩ := heq
    subst h1
    subst h2
    subst h3
    rw [hsl]

/-- Enqueuing a sequence of messages with `send` appends them in call
order. -/
theorem foldl_send_egress (calls : List (List Char × Json)) :
    ∀ st : MessageProcessor,
      (calls.foldl (fun s m => send s m.1 m.2) st).egress = st.egress ++ calls := by
  induction calls with
  | nil => intro st; simp
  | cons m ms ih =>
    intro st
    rw [List.foldl_cons, ih]
    simp [send]

/-! ### Dispatch -/

theorem runHandlers_trace {Ctx : Type} (env : Nat → Json → Ctx → List (List Char × Json))
    (ctx : Ctx) (e : Json) :
    ∀ (hs : List Nat) (egress : List (List Char × Json)),
      (runHandlers env ctx e hs egress).2 = hs.map (fun h => (h, e)) := by
  intro hs
  induction hs with
  | nil => intro egress; simp [runHandlers]
  | cons h hs ih => intro egress; simp [runHandlers, ih]

theorem regIndex_snd (m : List (List Char × List Nat)) (t : List Char) :
    (regIndex m t).2 = handlersFor m t := by
  unfold regIndex handlersFor
  cases regFind m t <;> simp

theorem handlersFor_append_empty (t t' : List Char) :
    ∀ (m : List (List Char × List Nat)), regFind m t = none →
      handlersFor (m ++ [(t, [])]) t' = handlersFor m t' := by
  intro m
  induction m with
  | nil =>
    intro _
    by_cases h : t = t' <;> simp [handlersFor, regFind, h]
  | cons p m ih =>
    intro hfind
    obtain ⟨k, hs⟩ := p
    simp only [regFind] at hfind
    by_cases hk : k = t
    · rw [if_pos hk] at hfind; cases hfind
    · rw [if_neg hk] at hfind
      by_cases hk2 : k = t'
      · simp [handlersFor, regFind, hk2]
      · simp only [List.cons_append, handlersFor, regFind, if_neg hk2]
        exact ih hfind

theorem handlersFor_regIndex (m : List (List Char × List Nat)) (t t' : List Char) :
    handlersFor (regIndex m t).1 t' = handlersFor m t' := by
  unfold regIndex
  cases hf : regFind m t with
  | some hs => rfl
  | none => exact handlersFor_append_empty t t' m hf

theorem regFind_append_self (t : List Char) :
    ∀ (m : List (List Char × List Nat)), regFind m t = none →
      regFind (m ++ [(t, [])]) t = some [] := by
  intro m
  induction m with
  | nil => intro _; simp [regFind]
  | cons p m ih =>
    intro hfind
    obtain ⟨k, hs⟩ := p
    simp only [regFind] at hfind
    by_cases hk : k = t
    · rw [if_pos hk] at hfind; cases hfind
    · rw [if_neg hk] at hfind
      simp only [List.cons_append, regFind, if_neg hk]
      exact ih hfind

theorem dispatchGo_trace {Ctx : Type} (env : Nat → Json → Ctx → List (List Char × Json))
    (ctx : Ctx) :
    ∀ (ing : List (List Char × Json)) (reg : List (List Char × List Nat))
      (egress : List (List Char × Json)),
      (dispatchGo env ctx ing reg egress).2.2
        = ing.flatMap (fun m => (handlersFor reg m.1).map (fun h => (h, m.2))) := by
  intro ing
  induction ing with
  | nil => intro reg egress; simp [dispatchGo]
  | cons m rest ih =>
    intro reg egress
    obtain ⟨t, e⟩ := m
    simp only [dispatchGo, runHandlers_trace, regIndex_snd, ih, List.flatMap_cons]
    simp [handlersFor_regIndex]

/-- Registration order: `addHandler` appends at the end of the type's handler list. -/
theorem handlersFor_regInsert (t : List Char) (h : Nat) :
    ∀ (m : List (List Char × List Nat)),
      handlersFor (regInsert m t h) t = handlersFor m t ++ [h] := by
  intro m
  induction m with
  | nil => simp [handlersFor, regInsert, regFind]
  | cons p m ih =>
    obtain ⟨k, hs⟩ := p
    by_cases hk : k = t
    · simp [handlersFor, regInsert, regFind, hk]
    · simp only [regInsert, if_neg hk, handlersFor, regFind]
      simp only [handlersFor] at ih
      exact ih

/-! ### The claims -/

/-- Claim C1: when the whole-buffer parse fails (buffer ends mid-value or
holds invalid syntax), `parseBuffer` extracts nothing, appends nothing to
the inbound queue and leaves the buffer byte-for-byte unchanged: the
state is returned untouched. -/
theorem claim_C1_parse_failure_leaves_state (st : MessageProcessor)
    (h : parse_multi st.buffer = none) :
    parseBuffer st = st :=
  parseBuffer_stuck st h

theorem claim_C1_witness :
    parse_multi (MessageProcessor.mk ['\x7b'] [] [] []).buffer = none ∧
    parseBuffer ⟨['\x7b'], [], [], []⟩ = ⟨['\x7b'], [], [], []⟩ := by
  have h : parse_multi (MessageProcessor.mk ['\x7b'] [] [] []).buffer = none := by
    simp [parse_multi, parseMultiF, parseVal, skipWs, isWs, isDig]
  exact ⟨h, claim_C1_parse_failure_leaves_state ⟨['\x7b'], [], [], []⟩ h⟩

/-- Claim C2: serializing any message sequence with the flush path's
encoder and feeding the bytes to the framer in arbitrarily chunked
pieces, attempting extraction after each chunk, yields exactly that
sequence on the inbound queue, in order, no loss, no duplication, with
the buffer drained, once all bytes are delivered. -/
theorem claim_C2_chunked_framing (ms : List (List Char × Json))
    (chunks : List (List Char)) (h : chunks.flatten = serializeAll ms) :
    (feedChunks MessageProcessor.init chunks).ingress = ms ∧
    (feedChunks MessageProcessor.init chunks).buffer = [] := by
  have h0 : StreamInv ms MessageProcessor.init chunks.flatten := by
    refine ⟨[], ms, [], rfl, rfl, Or.inl rfl, by simpa [MessageProcessor.init] using h,
      Or.inl rfl⟩
  have hfin := StreamInv_feed ms chunks MessageProcessor.init h0
  obtain ⟨ms1, ms2, pre, hsplit, hing, hpre, hbf, hstrict⟩ := hfin
  rw [List.append_nil] at hbf
  have hbn : (feedChunks MessageProcessor.init chunks).buffer = [] := by
    rcases hstrict with h1 | h1
    · exact h1
    · rw [hbf] at h1; omega
  rw [hbn] at hbf
  have hnil : pre = [] ∧ serializeAll ms2 = [] := by
    constructor
    · cases hpre with
      | inl h2 => exact h2
      | inr h2 =>
        rw [h2] at hbf
        cases hbf
    · have := congrArg List.length hbf
      simp at this
      exact List.eq_nil_of_length_eq_zero (by omega)
  have hms2 : ms2 = [] := serializeAll_eq_nil hnil.2
  rw [hms2, List.append_nil] at hsplit
  exact ⟨by rw [hing, hsplit], hbn⟩

theorem claim_C2_witness :
    (List.flatten [serializeAll [(['a'], Json.null)]]
      = serializeAll [(['a'], Json.null)]) ∧
    (feedChunks MessageProcessor.init [serializeAll [(['a'], Json.null)]]).ingress
      = [(['a'], Json.null)] ∧
    (feedChunks MessageProcessor.init [serializeAll [(['a'], Json.null)]]).buffer = [] := by
  have h : List.flatten [serializeAll [(['a'], Json.null)]]
      = serializeAll [(['a'], Json.null)] := by simp
  have h2 := claim_C2_chunked_framing [(['a'], Json.null)]
    [serializeAll [(['a'], Json.null)]] h
  exact ⟨h, h2.1, h2.2⟩

/-- Claim C3: `dispatch` drains the inbound queue front first; the
handler-invocation trace is exactly, message by message in queue order,
the handlers registered for the message's type in registration order,
each applied once to that message's payload, all of one message's
handlers before the next message's; and `addHandler` registers at the
end of a type's list, so N registered handlers all run, in registration
order. -/
theorem claim_C3_dispatch_in_order {Ctx : Type}
    (env : Nat → Json → Ctx → List (List Char × Json)) (ctx : Ctx)
    (st : MessageProcessor) :
    (dispatch env ctx st).2
        = st.ingress.flatMap
            (fun m => (handlersFor st.handlers m.1).map (fun h => (h, m.2))) ∧
    (dispatch env ctx st).1.ingress = [] ∧
    (∀ t h, handlersFor (addHandler st t h).handlers t
        = handlersFor st.handlers t ++ [h]) := by
  refine ⟨?_, rfl, ?_⟩
  · simpa [dispatch] using dispatchGo_trace env ctx st.ingress st.handlers st.egress
  · intro t h
    exact handlersFor_regInsert t h st.handlers

/-- Claim C4: on a successful whole-buffer parse, every value that is an
object with a string `type` field is appended (in extraction order) to
the inbound queue with its `entity` field as payload, null when absent;
every other value is silently discarded; and the buffer is cleared
regardless, so discarded values count as consumed.  `msgOfJson` is the
per-value check and `List.filterMap` performs the in-order selection. -/
theorem claim_C4_extraction (st : MessageProcessor) (vs : List Json)
    (h : parse_multi st.buffer = some vs) :
    parseBuffer st
      = { st with buffer := [], ingress := st.ingress ++ vs.filterMap msgOfJson } := by
  by_cases hb : st.buffer = []
  · have hvs : vs = [] := by
      rw [hb] at h
      simp [parse_multi, parseMultiF, skipWs] at h
      exact h
    cases st with
    | mk b i e hs =>
      simp only at hb
      simp [parseBuffer, hb, hvs]
  · exact parseBuffer_some st vs hb h

theorem claim_C4_witness :
    parse_multi (MessageProcessor.mk ['7'] [] [] []).buffer = some [Json.num 7] ∧
    parseBuffer ⟨['7'], [], [], []⟩
      = { (⟨['7'], [], [], []⟩ : MessageProcessor) with
          buffer := [], ingress := [] ++ [Json.num 7].filterMap msgOfJson } := by
  have h : parse_multi (MessageProcessor.mk ['7'] [] [] []).buffer = some [Json.num 7] := by
    simp [parse_multi, parseMultiF, parseVal, skipWs, isWs, isDig, parseDigits, numStop]
  exact ⟨h, claim_C4_extraction ⟨['7'], [], [], []⟩ [Json.num 7] h⟩

/-- Claim C5: starting from an empty outbound queue, enqueue any
sequence of `send` calls; a successful `flushSendQueue` transmits
exactly the serialization of those messages in call order (each one the
envelope object followed by one separator byte, per `encodeMessage` and
`serializeAll`), consuming the entire queue. -/
theorem claim_C5_flush_in_call_order (calls : List (List Char × Json))
    (st0 : MessageProcessor) (oracle : List Int) (log : List Char)
    (o2 : List Int) (st2 : MessageProcessor) (log2 : List Char)
    (h0 : st0.egress = [])
    (h : flushSendQueue oracle (calls.foldl (fun s m => send s m.1 m.2) st0) log
          = some (o2, st2, log2)) :
    log2 = log ++ serializeAll calls ∧ st2.egress = [] := by
  have hegr := foldl_send_egress calls st0
  rw [h0, List.nil_append] at hegr
  obtain ⟨h1, h2, _, _, _⟩ := flushSendQueue_props
    (calls.foldl (fun s m => send s m.1 m.2) st0).egress.length _ le_rfl
    oracle log o2 st2 log2 h
  rw [hegr] at h1
  exact ⟨h1, h2⟩

theorem claim_C5_witness :
    flushSendQueue [((encodeMessage ['a'] Json.null).length : Int)]
        (([(['a'], Json.null)] : List (List Char × Json)).foldl
          (fun s m => send s m.1 m.2) MessageProcessor.init) []
      = some ([], ⟨[], [], [], []⟩, encodeMessage ['a'] Json.null) ∧
    encodeMessage ['a'] Json.null = [] ++ serializeAll [(['a'], Json.null)] ∧
    (MessageProcessor.mk [] [] [] []).egress = [] := by
  have hpos : 0 < (encodeMessage ['a'] Json.null).length := by
    rw [show encodeMessage ['a'] Json.null
        = dump (envelope ['a'] Json.null) ++ [' '] from rfl,
      List.length_append, List.length_singleton]
    exact Nat.le_add_left 1 _
  have hm1 : ¬(((encodeMessage ['a'] Json.null).length : Int) = -1) := by
    intro h
    have h2 := Int.natCast_nonneg (encodeMessage ['a'] Json.null).length
    rw [h] at h2
    exact absurd h2 (by decide)
  have hsl : sendLoop (encodeMessage ['a'] Json.null)
      [((encodeMessage ['a'] Json.null).length : Int)] 0 []
      = some ([], encodeMessage ['a'] Json.null) := by
    simp only [sendLoop]
    rw [if_neg (Nat.not_le.mpr hpos), if_neg hm1,
      Int.toNat_natCast, Nat.zero_add, List.drop_zero, List.take_length,
      List.nil_append]
    rw [if_pos (le_refl _)]
  have hflush : flushSendQueue [((encodeMessage ['a'] Json.null).length : Int)]
      ⟨[], [], [(['a'], Json.null)], []⟩ []
      = some ([], ⟨[], [], [], []⟩, encodeMessage ['a'] Json.null) := by
    rw [flushSendQueue_cons _ _ _ ['a'] Json.null [] rfl _ _ hsl]
    exact flushSendQueue_nil _ _ _ rfl
  have happ := claim_C5_flush_in_call_order [(['a'], Json.null)] MessageProcessor.init
    [((encodeMessage ['a'] Json.null).length : Int)] [] []
    ⟨[], [], [], []⟩ (encodeMessage ['a'] Json.null) rfl hflush
  exact ⟨hflush, happ.1, happ.2⟩

/-- Claim C6 is REFUTED by the code: `proccess` swallows every `recv`
error, returning the state unchanged and indistinguishably for any two
error codes (would-block or not), giving the caller no signal; and the
`flushSendQueue` retry loop silently retries a failed `::send` (-1)
instead of surfacing it. -/
theorem claim_C6_errors_swallowed (st : MessageProcessor) (e1 e2 : Nat)
    (data : List Char) (oracle : List Int) (sent : Nat) (log : List Char)
    (h : sent < data.length) :
    proccess (.err e1) st = st ∧
    proccess (.err e1) st = proccess (.err e2) st ∧
    sendLoop data (-1 :: oracle) sent log = sendLoop data oracle sent log := by
  refine ⟨by simp [proccess], by simp [proccess], ?_⟩
  simp only [sendLoop]
  rw [if_neg (by omega)]
  simp

theorem claim_C6_witness :
    proccess (.err 104) MessageProcessor.init = MessageProcessor.init ∧
    sendLoop ['x'] [-1] 0 [] = sendLoop ['x'] [] 0 [] := by
  have h := claim_C6_errors_swallowed MessageProcessor.init 104 11 ['x'] [] 0 []
    (by decide)
  exact ⟨h.1, h.2.2⟩

/-- Claim C7 is REFUTED by the code: with a full buffer `proccess`
returns the state unchanged for every input — closed peer, error, or
fresh data — surfacing nothing to the caller: no flow-control condition
is distinguishable from an idle cycle. -/
theorem claim_C7_full_buffer_silent (st : MessageProcessor) (r : RecvResult)
    (h : bufferCapacity ≤ st.buffer.length) :
    proccess r st = st := by
  simp [proccess, Nat.sub_eq_zero_of_le h]

theorem claim_C7_witness :
    proccess (.data ['a']) ⟨List.replicate 8192 'x', [], [], []⟩
      = ⟨List.replicate 8192 'x', [], [], []⟩ :=
  claim_C7_full_buffer_silent ⟨List.replicate 8192 'x', [], [], []⟩ (.data ['a'])
    (by rw [List.length_replicate]; exact Nat.le_refl 8192)

/-- Claim C8 is FALSIFIED as stated: withholding only the final byte of
a serialized message withholds just the separator; the complete envelope
is already in the buffer, the whole-buffer parse succeeds, and the
message IS extracted (with the buffer cleared, not unchanged).  Shown on
the message type "a" with null payload: one byte is withheld, yet the
inbound queue receives the message. -/
theorem claim_C8_counterexample :
    (encodeMessage ['a'] Json.null).dropLast.length + 1
        = (encodeMessage ['a'] Json.null).length ∧
    (ingestChunk MessageProcessor.init
        ((encodeMessage ['a'] Json.null).dropLast)).ingress = [(['a'], Json.null)] ∧
    (ingestChunk MessageProcessor.init
        ((encodeMessage ['a'] Json.null).dropLast)).buffer = [] := by
  have hdl : (encodeMessage ['a'] Json.null).dropLast = dump (envelope ['a'] Json.null) := by
    simp [encodeMessage]
  have hne := envelope_dump_ne_nil ['a'] Json.null
  have hpm := parse_multi_dump_envelope ['a'] Json.null
  refine ⟨?_, ?_, ?_⟩
  · rw [show encodeMessage ['a'] Json.null
        = dump (envelope ['a'] Json.null) ++ [' '] from rfl,
      List.dropLast_concat, List.length_append, List.length_singleton]
  · rw [hdl]
    show (parseBuffer ⟨dump (envelope ['a'] Json.null), [], [], []⟩).ingress = _
    simp [parseBuffer, hne, hpm, msgOfJson_envelope]
  · rw [hdl]
    show (parseBuffer ⟨dump (envelope ['a'] Json.null), [], [], []⟩).buffer = _
    simp [parseBuffer, hne, hpm]

/-- Claim C8 (amended): withholding the last TWO bytes of a valid
serialized message — so the buffer ends strictly inside the envelope —
yields zero extracted messages and leaves the buffer content unchanged,
and delivering the remaining two bytes then yields exactly that one
message with the buffer drained. -/
theorem claim_C8_amended (t : List Char) (e : Json) :
    (ingestChunk MessageProcessor.init
        ((encodeMessage t e).take ((encodeMessage t e).length - 2))).ingress = [] ∧
    (ingestChunk MessageProcessor.init
        ((encodeMessage t e).take ((encodeMessage t e).length - 2))).buffer
      = (encodeMessage t e).take ((encodeMessage t e).length - 2) ∧
    (ingestChunk (ingestChunk MessageProcessor.init
        ((encodeMessage t e).take ((encodeMessage t e).length - 2)))
        ((encodeMessage t e).drop ((encodeMessage t e).length - 2))).ingress = [(t, e)] ∧
    (ingestChunk (ingestChunk MessageProcessor.init
        ((encodeMessage t e).take ((encodeMessage t e).length - 2)))
        ((encodeMessage t e).drop ((encodeMessage t e).length - 2))).buffer = [] := by
  have hs : encodeMessage t e = dump (envelope t e) ++ [' '] := rfl
  have hshape : dump (envelope t e)
      = '\x7b' :: (dumpFields (typeKey, Json.str t) [(entityKey, e)] ++ ['\x7d']) := by
    simp [envelope, dump]
  have hdl2 : 2 ≤ (dump (envelope t e)).length := by
    rw [hshape]; simp
  have hlen : (encodeMessage t e).length = (dump (envelope t e)).length + 1 := by
    simp [encodeMessage]
  have hk : (encodeMessage t e).length - 2 = (dump (envelope t e)).length - 1 := by omega
  have htake : (encodeMessage t e).take ((encodeMessage t e).length - 2)
      = (dump (envelope t e)).take ((dump (envelope t e)).length - 1) := by
    rw [hk, hs, List.take_append_of_le_length (by omega)]
  have hdl2b : 2 ≤ (dumpFields (typeKey, Json.str t) [(entityKey, e)]
      ++ ['\x7d']).length + 1 := by
    rw [hshape] at hdl2
    simp only [List.length_cons] at hdl2
    exact hdl2
  have hskip : ¬skipWs ((dump (envelope t e)).take
      ((dump (envelope t e)).length - 1)) = [] := by
    rw [hshape, take_cons_pos _ _ _ (by simp only [List.length_cons]; omega)]
    rw [skipWs_not_ws _ (by decide)]
    simp
  have hnone : parse_multi
      ((dump (envelope t e)).take ((dump (envelope t e)).length - 1)) = none := by
    unfold parse_multi
    apply parseMultiF_step_none
    · exact hskip
    · exact parseVal_take_obj [(typeKey, Json.str t), (entityKey, e)] _ _
        (by omega : (dump (envelope t e)).length - 1 < (dump (envelope t e)).length)
  have hfirst : ingestChunk MessageProcessor.init
      ((encodeMessage t e).take ((encodeMessage t e).length - 2))
      = ⟨(encodeMessage t e).take ((encodeMessage t e).length - 2), [], [], []⟩ := by
    show parseBuffer ⟨(encodeMessage t e).take ((encodeMessage t e).length - 2),
      [], [], []⟩ = _
    exact parseBuffer_stuck _ (by rw [show (MessageProcessor.mk
      ((encodeMessage t e).take ((encodeMessage t e).length - 2)) [] [] []).buffer
      = (encodeMessage t e).take ((encodeMessage t e).length - 2) from rfl, htake]; exact hnone)
  have hne2 : ¬encodeMessage t e = [] := by
    rw [hs]; simp
  have hsecond : ingestChunk
      (⟨(encodeMessage t e).take ((encodeMessage t e).length - 2), [], [], []⟩ :
        MessageProcessor)
      ((encodeMessage t e).drop ((encodeMessage t e).length - 2))
      = ⟨[], [(t, e)], [], []⟩ := by
    show parseBuffer ⟨(encodeMessage t e).take ((encodeMessage t e).length - 2)
      ++ (encodeMessage t e).drop ((encodeMessage t e).length - 2), [], [], []⟩ = _
    rw [List.take_append_drop]
    simp [parseBuffer, hne2, parse_multi_encode, msgOfJson_envelope]
  refine ⟨?_, ?_, ?_, ?_⟩
  · rw [hfirst]
  · rw [hfirst]
  · rw [hfirst, hsecond]
  · rw [hfirst, hsecond]

/-- Claim C9: dispatching a single message whose type has no registry
entry invokes no handler and raises no error, yet mutates the registry:
`m_handlers[type]` inserts an empty handler list for that type, so the
registry is not left unchanged. -/
theorem claim_C9_unknown_type_inserts {Ctx : Type}
    (env : Nat → Json → Ctx → List (List Char × Json)) (ctx : Ctx)
    (st : MessageProcessor) (t : List Char) (e : Json)
    (hing : st.ingress = [(t, e)]) (hfind : regFind st.handlers t = none) :
    (dispatch env ctx st).2 = [] ∧
    (dispatch env ctx st).1.handlers = st.handlers ++ [(t, [])] ∧
    ¬(dispatch env ctx st).1.handlers = st.handlers ∧
    regFind (dispatch env ctx st).1.handlers t = some [] ∧
    (dispatch env ctx st).1.egress = st.egress := by
  have hq : dispatchGo env ctx [(t, e)] st.handlers st.egress
      = (st.handlers ++ [(t, [])], st.egress, []) := by
    simp [dispatchGo, regIndex, hfind, runHandlers]
  refine ⟨?_, ?_, ?_, ?_, ?_⟩
  · simp [dispatch, hing, hq]
  · simp [dispatch, hing, hq]
  · simp only [dispatch, hing, hq]
    intro hEq
    have h2 := congrArg List.length hEq
    simp at h2
  · simp only [dispatch, hing, hq]
    exact regFind_append_self t st.handlers hfind
  · simp [dispatch, hing, hq]

theorem claim_C9_witness :
    (dispatch (fun (_ : Nat) (_ : Json) (_ : Unit) => ([] : List (List Char × Json))) ()
        ⟨[], [(['a'], Json.null)], [], []⟩).2 = [] ∧
    (dispatch (fun (_ : Nat) (_ : Json) (_ : Unit) => ([] : List (List Char × Json))) ()
        ⟨[], [(['a'], Json.null)], [], []⟩).1.handlers = [] ++ [(['a'], [])] ∧
    regFind (dispatch (fun (_ : Nat) (_ : Json) (_ : Unit) =>
        ([] : List (List Char × Json))) ()
        ⟨[], [(['a'], Json.null)], [], []⟩).1.handlers ['a'] = some [] := by
  have h := claim_C9_unknown_type_inserts
    (fun (_ : Nat) (_ : Json) (_ : Unit) => ([] : List (List Char × Json))) ()
    ⟨[], [(['a'], Json.null)], [], []⟩ ['a'] Json.null rfl rfl
  exact ⟨h.1, h.2.1, h.2.2.2.1⟩

/-- Claim C10: whenever every transport write returns a positive byte
count and the oracle has at least as many entries as there are queued
bytes, `flushSendQueue` terminates (returns `some`) with the outbound
queue empty. -/
theorem claim_C10_flush_terminates (st : MessageProcessor) (oracle : List Int)
    (log : List Char) (hpos : ∀ r ∈ oracle, 0 < r)
    (hlen : totalBytes st.egress ≤ oracle.length) :
    (flushSendQueue oracle st log).map (fun p => p.2.1.egress) = some [] := by
  obtain ⟨o2, st2, log2, h⟩ :=
    flushSendQueue_term st.egress.length st le_rfl oracle log hpos hlen
  obtain ⟨_, h2, _, _, _⟩ :=
    flushSendQueue_props st.egress.length st le_rfl oracle log o2 st2 log2 h
  rw [h]
  simp [h2]

theorem claim_C10_witness :
    (flushSendQueue (List.replicate (totalBytes [(['a'], Json.null)]) 1)
        ⟨[], [], [(['a'], Json.null)], []⟩ []).map (fun p => p.2.1.egress)
      = some [] := by
  refine claim_C10_flush_terminates ⟨[], [], [(['a'], Json.null)], []⟩ _ [] ?_ ?_
  · intro r hr
    rw [List.eq_of_mem_replicate hr]
    norm_num
  · simp

end net
